import Mathlib

/-!
# Verification of the modulewise composable-runtime core

A shallow embedding, in Lean 4, of the core algorithms of the
modulewise/composable-runtime repository, together with theorems settling a
fixed list of claims about its natural-language specification.

Embedded components (with their Rust source locations):

* string / semver helpers and import satisfaction
  (`src/registry.rs`: `parse_semver`, `is_import_satisfied`);
* JSON <-> Component-Model value marshalling
  (`src/runtime.rs`: `json_to_val`, `val_to_json`);
* the per-invocation extension-state bag (`src/types.rs`: `ComponentState`);
* definition loading and validation (`src/loader.rs`: `build_definitions`);
* graph construction with interceptor redirection and cycle detection
  (`src/graph.rs`: `ComponentGraph::build`);
* registry construction (`src/registry.rs`: `build_registries`,
  `process_component`, `get_enabled_component_dependency`,
  `get_enabled_runtime_feature`).

Modelling conventions:

* Rust `String` / `&str` is modelled as Lean `String` (a `List Char`
  wrapper), and character-level algorithms are written on `List Char`.
* `HashMap` / `HashSet` values are modelled as association lists / lists;
  where the map is used only through `insert` (overwrite) and `get`, the
  model inserts by replacement and looks up the first match.
* JSON numbers carry either an (arbitrary-precision) integer — covering
  serde_json's `u64`/`i64` representations — or a finite binary float,
  represented exactly as a dyadic rational (serde_json's `Float`
  representation; JSON cannot denote NaN or an infinity).  The program does
  no float arithmetic, only the conversions integer-to-double, double-to-
  float and float-to-double, modelled as significand rounding (see the
  float section).
* Machine-integer casts (`as u8` etc.) are modelled with explicit `% 2^w`
  arithmetic, signed casts with a two's-complement adjustment.
* External collaborators that are not part of the repository's core
  (the wasmtime engine's `Parser`/`Composer` primitives, byte fetching,
  host-extension factories, petgraph's toposort) are modelled as explicit
  oracle functions or, where their contract is fixed, as contract-faithful
  executable functions; each such definition carries a comment naming what
  it stands for.
-/

/-! ## Character-level string utilities -/

/-- Prepend a character to the first part of a split result. -/
def consHead (x : Char) : List (List Char) → List (List Char)
  | [] => [[x]]
  | h :: t => (x :: h) :: t

/-- Rust `str::split(c)` on the underlying character list: splits on every
occurrence of `c`; `""` yields `[[]]`, and separators at the ends yield empty
parts, exactly as in Rust. -/
def splitOnChar (c : Char) : List Char → List (List Char)
  | [] => [[]]
  | x :: rest =>
    if x = c then [] :: splitOnChar c rest
    else consHead x (splitOnChar c rest)

/-- Rust `str::rsplit_once(c)`: splits at the LAST occurrence of `c`,
returning the parts before and after it (separator excluded); `none` when `c`
does not occur. -/
def rsplitOnceChar (c : Char) : List Char → Option (List Char × List Char)
  | [] => none
  | x :: rest =>
    match rsplitOnceChar c rest with
    | some (a, b) => some (x :: a, b)
    | none => if x = c then some ([], rest) else none

/-- `rsplit_once` lifted to `String` (as used on interface ids). -/
def rsplit_once (s : String) (c : Char) : Option (String × String) :=
  (rsplitOnceChar c s.data).map (fun p => (⟨p.1⟩, ⟨p.2⟩))

/-- Numeric value of a digit list (most significant first). -/
def digitsVal (ds : List Char) : Nat :=
  ds.foldl (fun a c => a * 10 + (c.toNat - 48)) 0

/-- Rust `u32::from_str`: an optional leading `+`, then one or more ASCII
digits, value below `2^32`.  (A leading `-` or any other character fails, as
does overflow.) -/
def parseU32Digits (ds : List Char) : Option Nat :=
  if ds.isEmpty then none
  else if ds.all (·.isDigit) then
    if digitsVal ds < 4294967296 then some (digitsVal ds) else none
  else none

def parseU32Chars (cs : List Char) : Option Nat :=
  parseU32Digits (if cs.head? = some '+' then cs.tail else cs)

/-! ## Semver parsing and import satisfaction (`src/registry.rs`) -/

/-- `parse_semver` (src/registry.rs): splits on `.`, requires exactly three
parts, each parsing as a Rust `u32`. -/
def parse_semver (version : String) : Option (Nat × Nat × Nat) :=
  match splitOnChar '.' version.data with
  | [a, b, c] =>
    match parseU32Chars a, parseU32Chars b, parseU32Chars c with
    | some major, some minor, some patch => some (major, minor, patch)
    | _, _, _ => none
  | _ => none

/-- `is_import_satisfied` (src/registry.rs): exact membership first; otherwise
split the import at the last `@`, parse the version as semver, and scan the
provided interfaces for one with the same name, same major, same minor, and a
patch at least as large.  The provided `HashSet` is modelled as a list (the
result is order-independent). -/
def is_import_satisfied (imp : String) (runtime_interfaces : List String) : Bool :=
  if runtime_interfaces.contains imp then true
  else
    match rsplit_once imp '@' with
    | some (interface_name, requested_version) =>
      match parse_semver requested_version with
      | some requested_semver =>
        runtime_interfaces.any (fun available =>
          match rsplit_once available '@' with
          | some (available_name, available_version) =>
            interface_name == available_name &&
              (match parse_semver available_version with
               | some available_semver =>
                 available_semver.1 == requested_semver.1 &&
                   available_semver.2.1 == requested_semver.2.1 &&
                   decide (requested_semver.2.2 ≤ available_semver.2.2)
               | none => false)
          | none => false)
      | none => false
    | none => false

/-! Specification-side predicates for claim C3, written structurally (string
decompositions and digit runs), independently of the parsing code above. -/

/-- The character list `cs` is a Rust-`u32` numeral denoting `n`: an optional
leading `+`, a nonempty run of ASCII digits, value `n < 2^32`. -/
def NumeralVal (cs : List Char) (n : Nat) : Prop :=
  ∃ ds : List Char, (cs = ds ∨ cs = '+' :: ds) ∧ ds ≠ [] ∧
    (∀ d ∈ ds, d.isDigit) ∧ digitsVal ds = n ∧ n < 4294967296

/-- The string `s` has the form `<name>@<major>.<minor>.<patch>` (split at the
last `@`, numeric three-part version). -/
def SemverForm (s : String) (name : String) (major minor patch : Nat) : Prop :=
  ∃ a b c : List Char,
    s.data = name.data ++ '@' :: (a ++ '.' :: b ++ '.' :: c) ∧
    NumeralVal a major ∧ NumeralVal b minor ∧ NumeralVal c patch

/-- The import-satisfaction relation exactly as the specification states it:
literal membership, or a semver-shaped id matched by a provided id with the
same name, equal major and minor, and at least the requested patch. -/
def ImportSatisfiedSpec (imp : String) (runtime_interfaces : List String) : Prop :=
  imp ∈ runtime_interfaces ∨
    ∃ name major minor patch, SemverForm imp name major minor patch ∧
      ∃ avail ∈ runtime_interfaces, ∃ x y z,
        SemverForm avail name x y z ∧ x = major ∧ y = minor ∧ patch ≤ z

/-! ## JSON values and Component-Model types/values (`src/runtime.rs`)

Floating point.  A JSON number is finite (JSON has no NaN or infinity), and
the program performs no float arithmetic — only the conversions `as f64` of
an integer, `as f32` of a double (round to nearest, ties to even) and the
exact widening `f32 as f64`.  A finite binary float is exactly a dyadic
rational `mant * 2 ^ exp`, which the model represents as such; the
conversions round the significand to 53 and 24 bits respectively (the
normal range; a conversion that would overflow or denormalize a binary32
does not occur in any scenario or claim below).  The conversion functions
normalize the mantissa to odd (or zero), so structural equality of
`FloatVal` coincides with value equality on every float the program
builds, matching serde_json's float equality. -/

/-- A finite binary floating-point value: the dyadic rational
`mant * 2 ^ exp`, mantissa normalized to odd or zero by its producers. -/
structure FloatVal where
  mant : Int
  exp : Int
deriving Repr, DecidableEq

/-- Bit length of a natural number (`0` for `0`); fuel-based so that it
computes by kernel reduction. -/
def bitLenAux : Nat → Nat → Nat
  | 0, _ => 0
  | fuel + 1, n => if n = 0 then 0 else bitLenAux fuel (n / 2) + 1

/-- Bit length of a natural number. -/
def bitLen (n : Nat) : Nat := bitLenAux n n

/-- Normalize a dyadic `m * 2 ^ e`: halve the mantissa while it is even and
nonzero. -/
def normDyadicAux : Nat → Int → Int → FloatVal
  | 0, m, e => ⟨m, e⟩
  | fuel + 1, m, e =>
    if m ≠ 0 ∧ m % 2 = 0 then normDyadicAux fuel (m / 2) (e + 1) else ⟨m, e⟩

/-- Normalized dyadic rational `m * 2 ^ e`. -/
def normDyadic (m e : Int) : FloatVal := normDyadicAux m.natAbs m e

/-- Round an integer to `p` significant bits, to nearest, ties to even: the
IEEE-754 conversion of an integer to a binary float with a `p`-bit
significand, in the normal range. -/
def roundSig (p : Nat) (n : Int) : FloatVal :=
  let a := n.natAbs
  if a ≤ 2 ^ p then normDyadic n 0
  else
    let s := bitLen a - p
    let base := a / 2 ^ s
    let rem := a % 2 ^ s
    let half := 2 ^ (s - 1)
    let rounded := if half < rem ∨ (rem = half ∧ base % 2 = 1) then base + 1 else base
    normDyadic (if n < 0 then -(rounded : Int) else (rounded : Int)) s

/-- Rust `u64 as f64` / `i64 as f64` (serde_json's `as_f64` on an integer
number): round to the 53-bit double significand. -/
def intToF64 (n : Int) : FloatVal := roundSig 53 n

/-- Rust `f64 as f32` in the normal range: round the significand to 24
bits. -/
def f64ToF32 (x : FloatVal) : FloatVal :=
  let r := roundSig 24 x.mant
  ⟨r.mant, r.exp + x.exp⟩

/-- Rust `f32 as f64`: exact widening. -/
def f32ToF64 (x : FloatVal) : FloatVal := x

/-- serde_json `Value`.  A number is an integer (`num`, serde's
`PosInt`/`NegInt`) or a finite float (`fnum`, serde's `Float`); serde_json
derives number equality per variant, so `1` and `1.0` are distinct values.
Object fields are kept as an insertion-ordered association list;
serde_json's `Map` has unique keys, which theorems assume where relevant. -/
inductive Json where
  | null
  | bool (b : Bool)
  | num (n : Int)
  | fnum (f : FloatVal)
  | str (s : String)
  | arr (items : List Json)
  | obj (fields : List (String × Json))
deriving Repr

/-- The Component-Model types handled by `json_to_val`
(wasmtime `component::Type`, minus the resource/future/stream/error-context
leaves, which `json_to_val` has no conversion for). -/
inductive Ty where
  | bool
  | string
  | char
  | u8 | u16 | u32 | u64
  | s8 | s16 | s32 | s64
  | f32 | f64
  | list (t : Ty)
  | tuple (ts : List Ty)
  | record (fields : List (String × Ty))
  | option (t : Ty)
deriving Repr

/-- wasmtime `component::Val`, restricted to the constructors reachable from
`json_to_val` plus the extra outbound-only constructors handled by
`val_to_json` (variant, enum, flags, result).  Resource/future/stream/
error-context values are `unreachable!()` in `val_to_json` and are omitted. -/
inductive Val where
  | bool (b : Bool)
  | str (s : String)
  | char (c : Char)
  | u8 (n : Nat) | u16 (n : Nat) | u32 (n : Nat) | u64 (n : Nat)
  | s8 (n : Int) | s16 (n : Int) | s32 (n : Int) | s64 (n : Int)
  | float32 (f : FloatVal) | float64 (f : FloatVal)
  | list (items : List Val)
  | record (fields : List (String × Val))
  | option (v : Option Val)
  | tuple (vs : List Val)
  | variant (name : String) (payload : Option Val)
  | enumv (name : String)
  | flags (names : List String)
  | result (isOk : Bool) (payload : Option Val)
deriving Repr

/-- serde_json `Number::as_u64` on an integer-valued number. -/
def jsonAsU64 (n : Int) : Option Nat :=
  if 0 ≤ n ∧ n ≤ 18446744073709551615 then some n.toNat else none

/-- serde_json `Number::as_i64` on an integer-valued number. -/
def jsonAsI64 (n : Int) : Option Int :=
  if -9223372036854775808 ≤ n ∧ n ≤ 9223372036854775807 then some n else none

/-- Rust `as u8` / `as u16` / `as u32` applied to a `u64`: truncation mod `2^w`. -/
def truncU (w : Nat) (n : Nat) : Nat := n % 2 ^ w

/-- Rust `as i8` / `as i16` / `as i32` applied to an `i64`: two's-complement
truncation to `w` bits. -/
def truncS (w : Nat) (n : Int) : Int :=
  let m := n % 2 ^ w
  if m < 2 ^ (w - 1) then m else m - 2 ^ w

/-- serde_json `Map::get`: key lookup (keys are unique in a serde map). -/
def lookupField (o : List (String × Json)) (k : String) : Option Json :=
  (o.find? (fun kv => kv.1 == k)).map (·.2)

/-- Whether a Component-Model type is an `option` (the record-conversion
check for absent fields). -/
def isOptionTy : Ty → Bool
  | .option _ => true
  | _ => false

mutual

/-- `json_to_val` (src/runtime.rs): convert a JSON argument to a
Component-Model value at an expected type.  Match arms are in source order;
in particular the two `option` arms come last before the type-mismatch
error.  The source's numeric arms match any JSON number, and serde's
`as_u64`/`as_i64` return `None` on a float, hence the explicit `fnum`
error arms; `as_f64` is total on numbers, so the float arms' `Invalid
number` branch of the source is unreachable and the arms always succeed. -/
def json_to_val (json_value : Json) (val_type : Ty) : Except String Val :=
  match json_value, val_type with
  | .bool b, .bool => .ok (.bool b)
  | .str s, .string => .ok (.str s)
  | .str s, .char =>
    match s.data with
    | [c] => .ok (.char c)
    | _ => .error ("Expected single character, got: " ++ s)
  | .num n, .u8 =>
    match jsonAsU64 n with
    | some v => .ok (.u8 (truncU 8 v))
    | none => .error "Invalid number for u8"
  | .fnum _, .u8 => .error "Invalid number for u8"
  | .num n, .u16 =>
    match jsonAsU64 n with
    | some v => .ok (.u16 (truncU 16 v))
    | none => .error "Invalid number for u16"
  | .fnum _, .u16 => .error "Invalid number for u16"
  | .num n, .u32 =>
    match jsonAsU64 n with
    | some v => .ok (.u32 (truncU 32 v))
    | none => .error "Invalid number for u32"
  | .fnum _, .u32 => .error "Invalid number for u32"
  | .num n, .u64 =>
    match jsonAsU64 n with
    | some v => .ok (.u64 v)
    | none => .error "Invalid number for u64"
  | .fnum _, .u64 => .error "Invalid number for u64"
  | .num n, .s8 =>
    match jsonAsI64 n with
    | some v => .ok (.s8 (truncS 8 v))
    | none => .error "Invalid number for s8"
  | .fnum _, .s8 => .error "Invalid number for s8"
  | .num n, .s16 =>
    match jsonAsI64 n with
    | some v => .ok (.s16 (truncS 16 v))
    | none => .error "Invalid number for s16"
  | .fnum _, .s16 => .error "Invalid number for s16"
  | .num n, .s32 =>
    match jsonAsI64 n with
    | some v => .ok (.s32 (truncS 32 v))
    | none => .error "Invalid number for s32"
  | .fnum _, .s32 => .error "Invalid number for s32"
  | .num n, .s64 =>
    match jsonAsI64 n with
    | some v => .ok (.s64 v)
    | none => .error "Invalid number for s64"
  | .fnum _, .s64 => .error "Invalid number for s64"
  | .num n, .f32 => .ok (.float32 (f64ToF32 (intToF64 n)))
  | .fnum f, .f32 => .ok (.float32 (f64ToF32 f))
  | .num n, .f64 => .ok (.float64 (intToF64 n))
  | .fnum f, .f64 => .ok (.float64 f)
  | .arr items, .list t => do
    let vs ← jsonListToVals items t
    .ok (.list vs)
  | .arr items, .tuple ts =>
    if items.length = ts.length then do
      let vs ← jsonTupleToVals items ts
      .ok (.tuple vs)
    else .error "Tuple length mismatch"
  | .obj o, .record fs => do
    let fields ← jsonRecordToVals o fs
    match o.find? (fun kv => !(fs.any (fun f => f.1 == kv.1))) with
    | some kv => .error ("Unexpected field " ++ kv.1 ++ " in record")
    | none => .ok (.record fields)
  | .null, .option _ => .ok (.option none)
  | j, .option t => do
    let inner ← json_to_val j t
    .ok (.option (some inner))
  | _, _ => .error "Type mismatch"

/-- Elementwise conversion for `list<T>` (the loop inside `json_to_val`). -/
def jsonListToVals (items : List Json) (t : Ty) : Except String (List Val) :=
  match items with
  | [] => .ok []
  | j :: rest => do
    let v ← json_to_val j t
    let vs ← jsonListToVals rest t
    .ok (v :: vs)

/-- Pointwise conversion for `tuple<T0..Tn>` (the zip loop inside
`json_to_val`); called with lists of equal length. -/
def jsonTupleToVals (items : List Json) (ts : List Ty) : Except String (List Val) :=
  match items, ts with
  | j :: jrest, t :: trest => do
    let v ← json_to_val j t
    let vs ← jsonTupleToVals jrest trest
    .ok (v :: vs)
  | _, _ => .ok []

/-- One record field of `json_to_val`: a present field converts recursively,
an absent field of `option` type becomes `none`, any other absent field is an
error. -/
def jsonFieldToVal (fname : String) (fty : Ty) : Option Json → Except String Val
  | some jv => json_to_val jv fty
  | none =>
    if isOptionTy fty then .ok (.option none)
    else .error ("Missing required field " ++ fname ++ " in record")

/-- Field-by-field conversion for `record` (the loop over the record's typed
fields inside `json_to_val`). -/
def jsonRecordToVals (o : List (String × Json)) (fs : List (String × Ty)) :
    Except String (List (String × Val)) :=
  match fs with
  | [] => .ok []
  | (fname, fty) :: rest => do
    let v ← jsonFieldToVal fname fty (lookupField o fname)
    let vs ← jsonRecordToVals o rest
    .ok ((fname, v) :: vs)

end

/-- serde_json `Map::insert`: overwrite the value at an existing key, else
append the pair. -/
def jsonObjInsert (fields : List (String × Json)) (k : String) (v : Json) :
    List (String × Json) :=
  if fields.any (fun kv => kv.1 == k) then
    fields.map (fun kv => if kv.1 == k then (k, v) else kv)
  else fields ++ [(k, v)]

mutual

/-- `val_to_json` (src/runtime.rs): convert a Component-Model value to JSON.
Numbers become JSON numbers (floats via `Number::from_f64`, whose `None`
branch fires only on NaN or an infinity, which no finite float is — the
model takes the `Some` path), chars single-character strings, `option`
collapses (`some v` to the conversion of `v`, `none` to `null`), variants
become tagged objects, enums strings, flags string arrays, results
`{"ok": ...}` / `{"error": ...}` objects. -/
def val_to_json (val : Val) : Json :=
  match val with
  | .bool b => .bool b
  | .str s => .str s
  | .char c => .str c.toString
  | .u8 n => .num n
  | .u16 n => .num n
  | .u32 n => .num n
  | .u64 n => .num n
  | .s8 n => .num n
  | .s16 n => .num n
  | .s32 n => .num n
  | .s64 n => .num n
  | .float32 f => .fnum (f32ToF64 f)
  | .float64 f => .fnum f
  | .list items => .arr (valsToJson items)
  | .record fields => .obj (valFieldsToJson fields)
  | .option o =>
    match o with
    | some v => val_to_json v
    | none => .null
  | .tuple vs => .arr (valsToJson vs)
  | .variant name payload =>
    match payload with
    | some v =>
      match val_to_json v with
      | .obj payloadFields =>
        .obj (payloadFields.foldl (fun acc kv => jsonObjInsert acc kv.1 kv.2)
          [("type", .str name)])
      | other => .obj [("type", .str name), ("value", other)]
    | none => .obj [("type", .str name)]
  | .enumv name => .str name
  | .flags names => .arr (names.map (fun s => .str s))
  | .result isOk payload =>
    match payload with
    | some v => .obj [(if isOk then "ok" else "error", val_to_json v)]
    | none => .obj [(if isOk then "ok" else "error", .null)]

/-- Elementwise `val_to_json` over a list (the `map` in the list/tuple arms). -/
def valsToJson (vs : List Val) : List Json :=
  match vs with
  | [] => []
  | v :: rest => val_to_json v :: valsToJson rest

/-- Fieldwise `val_to_json` over record fields (insertion order preserved). -/
def valFieldsToJson (fields : List (String × Val)) : List (String × Json) :=
  match fields with
  | [] => []
  | (n, v) :: rest => (n, val_to_json v) :: valFieldsToJson rest

end

mutual

/-- The canonicalization the round-trip specification speaks of, written
type-directed: single-character strings stay strings (chars re-stringify to
them), absent `option`-typed record fields become `null`, record fields are
listed in the record type's field order (serde_json object equality is
key-based, so this fixes a representative), `option` layers collapse.  On
shapes the type does not describe, the value is returned unchanged. -/
def canonicalize (j : Json) (t : Ty) : Json :=
  match j, t with
  | .arr items, .list et => .arr (canonList items et)
  | .arr items, .tuple ts => .arr (canonTuple items ts)
  | .obj o, .record fs => .obj (canonRecord o fs)
  | .null, .option _ => .null
  | jv, .option et => canonicalize jv et
  | jv, _ => jv

/-- Elementwise canonicalization for `list<T>`. -/
def canonList (items : List Json) (t : Ty) : List Json :=
  match items with
  | [] => []
  | j :: rest => canonicalize j t :: canonList rest t

/-- Pointwise canonicalization for tuples. -/
def canonTuple (items : List Json) (ts : List Ty) : List Json :=
  match items, ts with
  | j :: jrest, t :: trest => canonicalize j t :: canonTuple jrest trest
  | _, _ => []

/-- One field of record canonicalization: canonicalize a present field,
replace an absent one by `null`. -/
def canonField (fty : Ty) : Option Json → Json
  | some jv => canonicalize jv fty
  | none => .null

/-- Record canonicalization: the record type's fields in order. -/
def canonRecord (o : List (String × Json)) (fs : List (String × Ty)) :
    List (String × Json) :=
  match fs with
  | [] => []
  | (fname, fty) :: rest =>
    (fname, canonField fty (lookupField o fname)) :: canonRecord o rest

end

mutual

/-- The range-checked, float-free matching relation between a JSON value
and a Component-Model type: the shape discipline of `json_to_val` with
every numeric leaf required to lie inside the target type's range (JSON
object keys additionally required unique), and with float leaves excluded —
nothing matches `f32`/`f64` and a float-valued number matches no type — via
the final catch-all.  This is the hypothesis of the amended round-trip law:
converting an integer at a float type changes the serde number variant
(`1` comes back as `1.0`) and `f64`-to-`f32` narrowing loses precision, so
the law fails on float leaves (see the counterexample). -/
def Matches (j : Json) (t : Ty) : Bool :=
  match j, t with
  | .bool _, .bool => true
  | .str _, .string => true
  | .str s, .char => s.data.length == 1
  | .num n, .u8 => decide (0 ≤ n ∧ n ≤ 255)
  | .num n, .u16 => decide (0 ≤ n ∧ n ≤ 65535)
  | .num n, .u32 => decide (0 ≤ n ∧ n ≤ 4294967295)
  | .num n, .u64 => decide (0 ≤ n ∧ n ≤ 18446744073709551615)
  | .num n, .s8 => decide (-128 ≤ n ∧ n ≤ 127)
  | .num n, .s16 => decide (-32768 ≤ n ∧ n ≤ 32767)
  | .num n, .s32 => decide (-2147483648 ≤ n ∧ n ≤ 2147483647)
  | .num n, .s64 => decide (-9223372036854775808 ≤ n ∧ n ≤ 9223372036854775807)
  | .arr items, .list et => matchesList items et
  | .arr items, .tuple ts => items.length == ts.length && matchesTuple items ts
  | .obj o, .record fs =>
    (o.map Prod.fst).Nodup &&
      matchesRecord o fs &&
      o.all (fun kv => fs.any (fun f => f.1 == kv.1))
  | .null, .option _ => true
  | jv, .option et => Matches jv et
  | _, _ => false

/-- All list elements match the element type. -/
def matchesList (items : List Json) (t : Ty) : Bool :=
  match items with
  | [] => true
  | j :: rest => Matches j t && matchesList rest t

/-- Pointwise matching for tuples. -/
def matchesTuple (items : List Json) (ts : List Ty) : Bool :=
  match items, ts with
  | [], [] => true
  | j :: jrest, t :: trest => Matches j t && matchesTuple jrest trest
  | _, _ => false

/-- One field of the matching relation: present and matching, or absent with
an `option` type. -/
def matchesField (fty : Ty) : Option Json → Bool
  | some jv => Matches jv fty
  | none => isOptionTy fty

/-- Every record field is either present and matching, or absent with an
`option` type. -/
def matchesRecord (o : List (String × Json)) (fs : List (String × Ty)) : Bool :=
  match fs with
  | [] => true
  | (fname, fty) :: rest =>
    matchesField fty (lookupField o fname) && matchesRecord o rest

end

/-! ## Generic association-list operations (models of `HashMap`) -/

/-- `HashMap::insert` on an association list: replace the value at an
existing key, else append the pair. -/
def insertByKey {α β : Type} [BEq α] (l : List (α × β)) (k : α) (v : β) :
    List (α × β) :=
  if l.any (fun kv => kv.1 == k) then
    l.map (fun kv => if kv.1 == k then (k, v) else kv)
  else l ++ [(k, v)]

/-- `HashMap::get` on an association list. -/
def lookupByKey {α β : Type} [BEq α] (l : List (α × β)) (k : α) : Option β :=
  (l.find? (fun kv => kv.1 == k)).map (·.2)

/-- `s` starts with `p` (Rust `str::starts_with`), character-list based. -/
def strHasPre (p s : String) : Bool := s.data.take p.data.length == p.data

/-- Drop the first `n` characters of `s` (used for `strip_prefix` results). -/
def strDropLen (s : String) (n : Nat) : String := ⟨s.data.drop n⟩

/-! ## The per-invocation extension-state bag (`src/types.rs`) -/

/-- `ComponentState` (src/types.rs), restricted to the typed extension bag.
The `wasi_ctx` / `wasi_http_ctx` / `resource_table` fields are wasmtime
engine state and are outside this embedding.  `TypeId` is modelled as `Nat`;
`TyOf` assigns to each type identity the Lean type of its values, and a
stored `Box<dyn Any + Send>` is a value paired with its dynamic type id
(`Sigma TyOf`), so that the checked downcast can be modelled faithfully. -/
structure ComponentState (TyOf : Nat → Type) where
  extensions : List (Nat × Sigma TyOf)

/-- `ComponentState::get_extension::<T>`: look up `TypeId::of::<T>` in the
bag, then downcast; the downcast yields `none` when the stored dynamic type
differs from `T`. -/
def ComponentState.get_extension {TyOf : Nat → Type} (st : ComponentState TyOf)
    (T : Nat) : Option (TyOf T) :=
  match lookupByKey st.extensions T with
  | some ⟨t, v⟩ => if h : t = T then some (h ▸ v) else none
  | none => none

/-- `ComponentState::set_extension::<T>`: insert the value boxed with its
type id at key `TypeId::of::<T>` (overwriting any previous entry). -/
def ComponentState.set_extension {TyOf : Nat → Type} (st : ComponentState TyOf)
    (T : Nat) (v : TyOf T) : ComponentState TyOf :=
  ⟨insertByKey st.extensions T ⟨T, v⟩⟩

/-! ## Definition records (`src/types.rs`) and loader validation
(`src/loader.rs`) -/

/-- `ComponentDefinition` (src/types.rs), with the `DefinitionBase` /
`ComponentDefinitionBase` nesting flattened (the Rust `Deref` chain makes the
nested fields read as direct fields). -/
structure ComponentDefinition where
  name : String
  uri : String
  enables : String
  expects : List String
  intercepts : List String
  precedence : Int
  exposed : Bool
  config : Option (List (String × Json))
deriving Repr

/-- `RuntimeFeatureDefinition` (src/types.rs), flattened likewise. -/
structure RuntimeFeatureDefinition where
  name : String
  uri : String
  enables : String
  config : List (String × Json)
deriving Repr

/-- `validate_runtime_feature_enables_scope` (src/loader.rs). -/
def validate_runtime_feature_enables_scope (enables : String) :
    Except String Unit :=
  match enables with
  | "none" | "unexposed" | "exposed" | "any" => .ok ()
  | "package" | "namespace" =>
    .error "RuntimeFeature cannot use package/namespace scoping"
  | _ => .error "Invalid enables scope"

/-- `validate_component_enables_scope` (src/loader.rs). -/
def validate_component_enables_scope (enables : String) : Except String Unit :=
  match enables with
  | "none" | "package" | "namespace" | "unexposed" | "exposed" | "any" => .ok ()
  | _ => .error "Invalid enables scope"

/-- The scope-validation loop over runtime features. -/
def validateFeatureScopes : List RuntimeFeatureDefinition → Except String Unit
  | [] => .ok ()
  | d :: rest => do
    validate_runtime_feature_enables_scope d.enables
    validateFeatureScopes rest

/-- The scope-validation loop over components. -/
def validateComponentScopes : List ComponentDefinition → Except String Unit
  | [] => .ok ()
  | d :: rest => do
    validate_component_enables_scope d.enables
    validateComponentScopes rest

/-- The duplicate-name detection loop (`all_names.insert` returning `false`
on a duplicate is a fatal error); `seen` threads the `HashSet` contents. -/
def checkDuplicateNames (seen : List String) : List String → Except String (List String)
  | [] => .ok seen
  | n :: rest =>
    if seen.contains n then .error ("Duplicate definition name: " ++ n)
    else checkDuplicateNames (seen ++ [n]) rest

/-- The inner expects-validation loop of one component: an undefined expected
name is fatal unless the component is exposed (`continue`). -/
def checkExpectsOf (allNames : List String) (d : ComponentDefinition) :
    List String → Except String Unit
  | [] => .ok ()
  | e :: rest =>
    if allNames.contains e then checkExpectsOf allNames d rest
    else if d.exposed then checkExpectsOf allNames d rest
    else .error ("Component " ++ d.name ++ " expects undefined definition " ++ e)

/-- The outer expects-validation loop over all components. -/
def checkExpects (allNames : List String) : List ComponentDefinition → Except String Unit
  | [] => .ok ()
  | d :: rest => do
    checkExpectsOf allNames d d.expects
    checkExpects allNames rest

/-- `build_definitions` (src/loader.rs), from the point where the definition
lists have been assembled (TOML parsing and implicit-component synthesis are
manifest-syntax collaborators, spec §1/§6): validate enables scopes, detect
duplicate names across both lists (features first), then validate each
component's expectations against the set of all defined names. -/
def build_definitions (runtime_feature_definitions : List RuntimeFeatureDefinition)
    (component_definitions : List ComponentDefinition) :
    Except String (List RuntimeFeatureDefinition × List ComponentDefinition) := do
  validateFeatureScopes runtime_feature_definitions
  validateComponentScopes component_definitions
  let seen ← checkDuplicateNames [] (runtime_feature_definitions.map (·.name))
  let allNames ← checkDuplicateNames seen (component_definitions.map (·.name))
  checkExpects allNames component_definitions
  .ok (runtime_feature_definitions, component_definitions)

/-! ## The component graph (`src/graph.rs`)

petgraph's `DiGraph` is modelled with node indices `0, 1, ...` into a node
list and an edge list in insertion order.  All edge insertion in the source
goes through `update_edge`, which overwrites the weight of an existing
`(source, target)` edge instead of adding a parallel edge, so the edge list
holds at most one edge per ordered pair and edge identity coincides with the
ordered pair.  `retain_edges` may permute the surviving edges' indices, but
after the retain the graph is only read through pair lookups and the
toposort, both insensitive to that permutation, so the model keeps the
filtered order. -/

/-- Graph node payload (src/graph.rs `Node`). -/
inductive Node where
  | component (definition : ComponentDefinition)
  | runtimeFeature (definition : RuntimeFeatureDefinition)
deriving Repr

/-- Graph edge payload (src/graph.rs `Edge`): a plain dependency, or an
interceptor edge carrying the interceptor's precedence. -/
inductive Edge where
  | dependency
  | interceptor (precedence : Int)
deriving Repr, DecidableEq

/-- Name of the definition held by a node. -/
def nodeName : Node → String
  | .component d => d.name
  | .runtimeFeature d => d.name

/-- `DiGraph::update_edge`: overwrite the weight of the `(s, t)` edge if
present, else append a new edge. -/
def updateEdge (es : List (Nat × Nat × Edge)) (s t : Nat) (w : Edge) :
    List (Nat × Nat × Edge) :=
  if es.any (fun e => e.1 == s && e.2.1 == t) then
    es.map (fun e => if e.1 == s && e.2.1 == t then (s, t, w) else e)
  else es ++ [(s, t, w)]

/-- Weight of the `(s, t)` edge, if present. -/
def lookupEdge (es : List (Nat × Nat × Edge)) (s t : Nat) : Option Edge :=
  (es.find? (fun e => e.1 == s && e.2.1 == t)).map (·.2.2)

/-- `ComponentGraph` (src/graph.rs): the node list, the edge list, and the
name-to-index map. -/
structure ComponentGraph where
  nodes : List Node
  edges : List (Nat × Nat × Edge)
  node_map : List (String × Nat)
deriving Repr

/-- The node list: one node per runtime feature, then one per component
(indices in insertion order). -/
def buildNodes (component_definitions : List ComponentDefinition)
    (runtime_feature_definitions : List RuntimeFeatureDefinition) : List Node :=
  runtime_feature_definitions.map Node.runtimeFeature ++
    component_definitions.map Node.component

/-- The name-to-index map, inserted in node-creation order (a duplicate name
overwrites, as `HashMap::insert` does). -/
def nodeMapOf (component_definitions : List ComponentDefinition)
    (runtime_feature_definitions : List RuntimeFeatureDefinition) :
    List (String × Nat) :=
  ((runtime_feature_definitions.map (·.name) ++
      component_definitions.map (·.name)).enum).foldl
    (fun m p => insertByKey m p.2 p.1) []

/-- A component's effective dependency names: `expects`, then each
intercepted name not already present (`intercepts` implies `expects`). -/
def effectiveExpects (d : ComponentDefinition) : List String :=
  d.intercepts.foldl (fun acc t => if acc.contains t then acc else acc ++ [t])
    d.expects

/-- The initial edge set: for each component C and each effective dependency
name D that is defined, an edge `D -> C` labelled `Dependency` (unknown names
only warn). -/
def initialEdges (component_definitions : List ComponentDefinition)
    (nm : List (String × Nat)) : List (Nat × Nat × Edge) :=
  component_definitions.foldl
    (fun es d =>
      match lookupByKey nm d.name with
      | some srcIdx =>
        (effectiveExpects d).foldl
          (fun es2 tname =>
            match lookupByKey nm tname with
            | some tIdx => updateEdge es2 tIdx srcIdx .dependency
            | none => es2)
          es
      | none => es)
    []

/-- `is_interceptor_enabled` (src/graph.rs): the enables-scope filter applied
to an interceptor relative to a specific consumer; `package` / `namespace`
are tentatively accepted (metadata is not available in the graph builder) and
an unknown scope is rejected. -/
def is_interceptor_enabled (interceptor consumer : ComponentDefinition) : Bool :=
  match interceptor.enables with
  | "none" => false
  | "any" => true
  | "exposed" => consumer.exposed
  | "unexposed" => !consumer.exposed
  | "package" => true
  | "namespace" => true
  | _ => false

/-- The interceptors of a provider that are enabled for a given consumer, in
definition order (the two `filter` steps of the redirection pass). -/
def enabledInterceptors (component_definitions : List ComponentDefinition)
    (provider_name : String) (consumer : ComponentDefinition) :
    List ComponentDefinition :=
  (component_definitions.filter (fun d => d.intercepts.contains provider_name)).filter
    (fun d => is_interceptor_enabled d consumer)

/-- The sort key comparison of `sort_by_key(|a| a.precedence)`; insertion
sort with this `le` is the stable ascending sort the Rust stable
`sort_by_key` performs (equal keys retain their relative order). -/
def precLe (a b : ComponentDefinition) : Prop := a.precedence ≤ b.precedence

instance : DecidableRel precLe := fun a b => Int.decLe a.precedence b.precedence

instance : IsTotal ComponentDefinition precLe :=
  ⟨fun a b => Int.le_total a.precedence b.precedence⟩

instance : IsTrans ComponentDefinition precLe :=
  ⟨fun _ _ _ h1 h2 => le_trans h1 h2⟩

/-- Index of a definition's node (`node_map.get(&name).unwrap()`; the default
is never reached for definitions that were added as nodes). -/
def idxOfDef (nm : List (String × Nat)) (d : ComponentDefinition) : Nat :=
  (lookupByKey nm d.name).getD 0

/-- The interceptor chain additions for one redirected edge: starting from
the provider, an `Interceptor(precedence)` edge into each sorted interceptor
in turn, then a final `Dependency` edge into the consumer.  An interceptor
whose name is missing from the node map would be an `unwrap` panic in the
source; the model skips it (the case is unreachable, every interceptor is a
component and hence a node). -/
def chainAddsAux (nm : List (String × Nat)) (current target : Nat) :
    List ComponentDefinition → List (Nat × Nat × Edge)
  | [] => [(current, target, .dependency)]
  | i :: rest =>
    match lookupByKey nm i.name with
    | some idx => (current, idx, .interceptor i.precedence) :: chainAddsAux nm idx target rest
    | none => chainAddsAux nm current target rest

/-- The removals of pre-existing provider-to-interceptor edges for the sorted
interceptors after the first (`find_edge` consults the unmodified graph,
i.e. the snapshot). -/
def tailRemoves (nm : List (String × Nat)) (snapshot : List (Nat × Nat × Edge))
    (srcIdx : Nat) (tail : List ComponentDefinition) : List (Nat × Nat) :=
  tail.foldl
    (fun acc i =>
      match lookupByKey nm i.name with
      | some idx =>
        if snapshot.any (fun e => e.1 == srcIdx && e.2.1 == idx) then
          acc ++ [(srcIdx, idx)]
        else acc
      | none => acc)
    []

/-- The redirection decision for a single snapshot edge: the pairs to remove
and the labelled edges to add.  No change when the consumer is not a
component (unreachable), when no interceptor is enabled for it, or when the
consumer is itself one of the enabled interceptors. -/
def redirectStep (component_definitions : List ComponentDefinition)
    (nodes : List Node) (nm : List (String × Nat))
    (snapshot : List (Nat × Nat × Edge)) (e : Nat × Nat × Edge) :
    List (Nat × Nat) × List (Nat × Nat × Edge) :=
  match nodes[e.2.1]? with
  | some (Node.component consumer) =>
    let provider_name := match nodes[e.1]? with
      | some n => nodeName n
      | none => ""
    let interceptors := enabledInterceptors component_definitions provider_name consumer
    if interceptors.isEmpty then ([], [])
    else if interceptors.any (fun i => i.name == consumer.name) then ([], [])
    else
      let sorted := interceptors.insertionSort precLe
      (tailRemoves nm snapshot e.1 (sorted.drop 1) ++ [(e.1, e.2.1)],
       chainAddsAux nm e.1 e.2.1 sorted)
  | _ => ([], [])

/-- All removals accumulated over the snapshot, in edge order. -/
def redirectRemoves (component_definitions : List ComponentDefinition)
    (nodes : List Node) (nm : List (String × Nat))
    (snapshot : List (Nat × Nat × Edge)) : List (Nat × Nat) :=
  (snapshot.map (fun e => (redirectStep component_definitions nodes nm snapshot e).1)).flatten

/-- All additions accumulated over the snapshot, in edge order. -/
def redirectAdds (component_definitions : List ComponentDefinition)
    (nodes : List Node) (nm : List (String × Nat))
    (snapshot : List (Nat × Nat × Edge)) : List (Nat × Nat × Edge) :=
  (snapshot.map (fun e => (redirectStep component_definitions nodes nm snapshot e).2)).flatten

/-- `retain_edges` followed by the `update_edge` loop: drop every edge whose
pair was marked for removal, then apply the additions in order (an addition
overwrites the label of an existing pair). -/
def applyOps (snapshot : List (Nat × Nat × Edge)) (removes : List (Nat × Nat))
    (adds : List (Nat × Nat × Edge)) : List (Nat × Nat × Edge) :=
  adds.foldl (fun es a => updateEdge es a.1 a.2.1 a.2.2)
    (snapshot.filter (fun e => !(removes.contains (e.1, e.2.1))))

/-! ### Topological sort

The source calls `petgraph::algo::toposort`, an external library function.
Modelled from the spec: its contract is `Ok(topological order of all nodes)`
when the graph is acyclic and `Err(Cycle(n))` with `n` a node on a cycle
otherwise.  The model runs Kahn's algorithm (remove a node with no incoming
edge from the remainder until none exists) and, when stuck, walks incoming
edges inside the stuck set until a node repeats — that node is on a cycle. -/

/-- `v` has no incoming edge from `remaining`. -/
def noIncoming (edges : List (Nat × Nat)) (remaining : List Nat) (v : Nat) : Bool :=
  !(remaining.any (fun u => edges.contains (u, v)))

/-- Kahn's algorithm: repeatedly move the first remaining node with no
incoming edge from the remainder to the order; returns the order built and
the (possibly empty) stuck remainder. -/
def kahnAux (edges : List (Nat × Nat)) :
    Nat → List Nat → List Nat → List Nat × List Nat
  | 0, remaining, acc => (acc, remaining)
  | fuel + 1, remaining, acc =>
    match remaining.find? (noIncoming edges remaining) with
    | some v => kahnAux edges fuel (remaining.erase v) (acc ++ [v])
    | none => (acc, remaining)

/-- Walk incoming edges inside the stuck set, recording visited nodes, until
the current node repeats; the repeated node lies on a cycle. -/
def findCycleNodeAux (edges : List (Nat × Nat)) (stuck : List Nat) :
    Nat → List Nat → Nat → Nat
  | 0, _, cur => cur
  | fuel + 1, visited, cur =>
    if cur ∈ visited then cur
    else
      match stuck.find? (fun u => edges.contains (u, cur)) with
      | some u => findCycleNodeAux edges stuck fuel (cur :: visited) u
      | none => cur

/-- Entry point of the stuck-set cycle search. -/
def findCycleNode (edges : List (Nat × Nat)) (stuck : List Nat) : Nat :=
  findCycleNodeAux edges stuck (stuck.length + 1) [] (stuck.headD 0)

/-- The toposort model: `ok` with a topological order of `0..n-1`, or `error`
with a node on a cycle. -/
def toposortModel (n : Nat) (edges : List (Nat × Nat)) : Except Nat (List Nat) :=
  match kahnAux edges n (List.range n) [] with
  | (acc, []) => .ok acc
  | (_, stuck) => .error (findCycleNode edges stuck)

/-- The ordered pairs of an edge list (for the toposort, which ignores
labels). -/
def edgePairs (es : List (Nat × Nat × Edge)) : List (Nat × Nat) :=
  es.map (fun e => (e.1, e.2.1))

/-- `ComponentGraph::build` (src/graph.rs): create the nodes and the initial
dependency edges, accumulate the interceptor redirections over a snapshot of
the edges, apply removals then additions, and fail with a circular-dependency
error naming a node on a cycle when the result has no topological order. -/
def ComponentGraph_build (component_definitions : List ComponentDefinition)
    (runtime_feature_definitions : List RuntimeFeatureDefinition) :
    Except String ComponentGraph :=
  let nodes := buildNodes component_definitions runtime_feature_definitions
  let nm := nodeMapOf component_definitions runtime_feature_definitions
  let snapshot := initialEdges component_definitions nm
  let removes := redirectRemoves component_definitions nodes nm snapshot
  let adds := redirectAdds component_definitions nodes nm snapshot
  let final := applyOps snapshot removes adds
  match toposortModel nodes.length (edgePairs final) with
  | .ok _ => .ok ⟨nodes, final, nm⟩
  | .error v =>
    .error ("Circular dependency detected involving '" ++
      (match nodes[v]? with
       | some n => nodeName n
       | none => "") ++ "'")

/-- `ComponentGraph::get_build_order`: the toposort order (the `unwrap` never
panics on a graph returned by the builder; the model returns `[]` in the
unreachable case). -/
def get_build_order (g : ComponentGraph) : List Nat :=
  match toposortModel g.nodes.length (edgePairs g.edges) with
  | .ok order => order
  | .error _ => []

/-- `ComponentGraph::get_dependencies`: the sources of the edges into a node.
petgraph's `Neighbors` iterates a node's incoming edges most-recently-added
first, hence the reversal. -/
def get_dependencies (g : ComponentGraph) (idx : Nat) : List Nat :=
  ((g.edges.filter (fun e => e.2.1 == idx)).map (·.1)).reverse

/-- The edge list of the built graph just before the toposort (the `let`
chain of `ComponentGraph::build`, named for reuse in statements). -/
def graphFinalEdges (component_definitions : List ComponentDefinition)
    (runtime_feature_definitions : List RuntimeFeatureDefinition) :
    List (Nat × Nat × Edge) :=
  let nodes := buildNodes component_definitions runtime_feature_definitions
  let nm := nodeMapOf component_definitions runtime_feature_definitions
  let snapshot := initialEdges component_definitions nm
  applyOps snapshot
    (redirectRemoves component_definitions nodes nm snapshot)
    (redirectAdds component_definitions nodes nm snapshot)

/-- A list is a chain of edges (each consecutive pair is an edge). -/
def IsEdgeChain (edges : List (Nat × Nat)) (p : List Nat) : Prop :=
  List.Chain' (fun a b => (a, b) ∈ edges) p

/-- `v` lies on a cycle: some nonempty edge path leads from `v` back to `v`. -/
def OnCycle (edges : List (Nat × Nat)) (v : Nat) : Prop :=
  ∃ p : List Nat, IsEdgeChain edges (v :: p ++ [v])

/-- The graph has a cycle. -/
def Cyclic (edges : List (Nat × Nat)) : Prop := ∃ v, OnCycle edges v

/-- `order` is a topological order of the nodes `0..n-1` with respect to
`edges`: a duplicate-free enumeration of exactly those nodes in which every
edge source appears strictly before its target. -/
def IsTopoOrder (n : Nat) (edges : List (Nat × Nat)) (order : List Nat) : Prop :=
  order.Nodup ∧ (∀ v, v ∈ order ↔ v < n) ∧
    ∀ k, (hk : k < order.length) → ∀ u, (u, order.get ⟨k, hk⟩) ∈ edges →
      u < n → u ∈ order.take k

/-! ## Registry construction (`src/registry.rs`)

The wasmtime engine primitives used here — byte fetching (`read_bytes`),
component parsing (`Parser::parse`, from the repository's `wit` module) and
component composition (`Composer`, from its `composer` module) — are external
collaborators (and the `wit`/`composer` modules are not part of the core
under analysis), so they enter the model as oracle functions collected in an
`Env`; `none` from an oracle is the collaborator's error, which
`process_component` propagates with the corresponding error kind. -/

/-- Opaque component bytes (contents never inspected by the core). -/
abbrev Bytes := Nat

/-- `ComponentMetadata` (from the `wit` collaborator): the parsed namespace
and package of a component.  (`nspace` models the Rust field `namespace`,
which is a reserved word in Lean.) -/
structure ComponentMetadata where
  nspace : Option String
  package : Option String
deriving Repr

/-- Opaque handle for a parsed function table (only carried through). -/
abbrev Functions := Nat

/-- `ComponentSpec` (src/registry.rs). -/
structure ComponentSpec where
  name : String
  nspace : Option String
  package : Option String
  bytes : Bytes
  imports : List String
  exports : List String
  runtime_features : List String
  functions : Option Functions
deriving Repr

/-- `RuntimeFeature` (src/registry.rs); the boxed host-extension instance is
kept only as a presence flag plus the advertised interfaces, which is all the
registry code reads from it. -/
structure RuntimeFeature where
  uri : String
  enables : String
  interfaces : List String
  hasExtension : Bool
deriving Repr

/-- `EnablingComponent` (src/registry.rs). -/
structure EnablingComponent where
  component : ComponentSpec
  exposed : Bool
  enables : String
deriving Repr

/-- `ComponentRegistry` (src/registry.rs); both `HashMap`s as association
lists. -/
structure ComponentRegistry where
  components : List (String × ComponentSpec)
  enabling_components : List (String × EnablingComponent)
deriving Repr

/-- The distinguishable error kinds of registry construction; each
constructor stands for one `anyhow!` format string of src/registry.rs (noted
inline), carrying that format's parameters. -/
inductive RtError where
  /-- a `read_bytes` failure (I/O or OCI error) for the given URI -/
  | ioError (uri : String)
  /-- "Failed to parse component: {e}" -/
  | parseFailed (name : String)
  /-- "Failed to compose component '{name}' with config: {e}" -/
  | composeConfigFailed (name : String)
  /-- a `Composer::compose_components` failure propagated by `?` -/
  | composeFailed (name dep : String)
  /-- "Component '{name}' requested dependency '{dep}', but access is not enabled" -/
  | dependencyDisabled (name dep : String)
  /-- "Component '{name}' requested runtime feature '{feat}', but access is not enabled" -/
  | featureDisabled (name feat : String)
  /-- "Component '{name}' has unsatisfied imports: {imports:?}" -/
  | unsatisfiedImports (name : String) (imports : List String)
  /-- "Internal error: process_component called on a non-component node" -/
  | notComponentNode
  /-- "Host extension '{feat}' (URI: '{uri}') not registered. ..." -/
  | extensionMissing (feat uri : String)
  /-- "Failed to create host extension '{feat}' from TOML block '{name}': {e}" -/
  | extensionCreateFailed (feat name : String)
deriving Repr, DecidableEq

/-- The external collaborators of registry construction (see the section
comment). -/
structure Env where
  /-- `read_bytes`: fetch the bytes behind a URI (file read or OCI pull). -/
  readBytes : String → Option Bytes
  /-- `Parser::parse`: metadata, imports, exports and (optionally) the
  function table of a component, enumerated according to the exposed flag. -/
  parse : Bytes → Bool → Option (ComponentMetadata × List String × List String × Option Functions)
  /-- `Composer::compose_with_config`. -/
  composeWithConfig : Bytes → List (String × Json) → Option Bytes
  /-- `Composer::compose_components` (parent first, child second). -/
  composeComponents : Bytes → Bytes → Option Bytes

/-- `get_interfaces_for_runtime_feature` (src/registry.rs): the fixed
interface table of the built-in `wasmtime:*` runtime features (an unknown URI
warns and provides no interfaces). -/
def get_interfaces_for_runtime_feature (uri : String) : List String :=
  match uri with
  | "wasmtime:http" => ["wasi:http/outgoing-handler@0.2.6", "wasi:http/types@0.2.6"]
  | "wasmtime:io" => ["wasi:io/error@0.2.6", "wasi:io/poll@0.2.6", "wasi:io/streams@0.2.6"]
  | "wasmtime:random" => ["wasi:random/random@0.2.6", "wasi:random/insecure-seed@0.2.6"]
  | "wasmtime:inherit-network" =>
    ["wasi:sockets/tcp@0.2.6", "wasi:sockets/udp@0.2.6", "wasi:sockets/network@0.2.6",
     "wasi:sockets/instance-network@0.2.6"]
  | "wasmtime:allow-ip-name-lookup" => ["wasi:sockets/ip-name-lookup@0.2.6"]
  | "wasmtime:inherit-stdio" =>
    ["wasi:cli/stdin@0.2.6", "wasi:cli/stdout@0.2.6", "wasi:cli/stderr@0.2.6"]
  | "wasmtime:wasip2" =>
    ["wasi:cli/environment@0.2.6", "wasi:cli/exit@0.2.6", "wasi:cli/stderr@0.2.6",
     "wasi:cli/stdin@0.2.6", "wasi:cli/stdout@0.2.6", "wasi:cli/terminal-input@0.2.6",
     "wasi:cli/terminal-output@0.2.6", "wasi:cli/terminal-stdin@0.2.6",
     "wasi:cli/terminal-stdout@0.2.6", "wasi:cli/terminal-stderr@0.2.6",
     "wasi:clocks/monotonic-clock@0.2.6", "wasi:clocks/wall-clock@0.2.6",
     "wasi:filesystem/preopens@0.2.6", "wasi:filesystem/types@0.2.6",
     "wasi:io/error@0.2.6", "wasi:io/poll@0.2.6", "wasi:io/streams@0.2.6",
     "wasi:random/random@0.2.6", "wasi:random/insecure-seed@0.2.6",
     "wasi:sockets/tcp@0.2.6", "wasi:sockets/udp@0.2.6", "wasi:sockets/network@0.2.6",
     "wasi:sockets/instance-network@0.2.6", "wasi:sockets/ip-name-lookup@0.2.6",
     "wasi:sockets/tcp-create-socket@0.2.6", "wasi:sockets/udp-create-socket@0.2.6"]
  | _ => []

/-- A host-extension factory (`HostExtensionFactory::create`): from a config
map to the advertised interface list of the created instance, or a creation
error. -/
abbrev Factory := List (String × Json) → Option (List String)

/-- `create_runtime_feature_registry` (src/registry.rs): `host:` URIs look up
their factory (absent: fatal) and instantiate the extension from the
definition's config (failure: fatal); any other URI takes the built-in
interface table (config only warns). -/
def create_runtime_feature_registry (runtime_feature_definitions : List RuntimeFeatureDefinition)
    (factories : List (String × Factory)) :
    Except RtError (List (String × RuntimeFeature)) :=
  runtime_feature_definitions.foldlM
    (fun acc d =>
      if strHasPre "host:" d.uri then
        let feature_name := strDropLen d.uri 5
        match lookupByKey factories feature_name with
        | none => .error (.extensionMissing feature_name d.uri)
        | some factory =>
          match factory d.config with
          | none => .error (.extensionCreateFailed feature_name d.name)
          | some interfaces =>
            .ok (insertByKey acc d.name ⟨d.uri, d.enables, interfaces, true⟩)
      else
        .ok (insertByKey acc d.name
          ⟨d.uri, d.enables, get_interfaces_for_runtime_feature d.uri, false⟩))
    []

/-- `RuntimeFeatureRegistry::get_enabled_runtime_feature` (src/registry.rs):
resolve a feature and apply its enables scope against the requesting
component (`package` / `namespace` and unknown scopes resolve to `None`). -/
def get_enabled_runtime_feature (runtime_features : List (String × RuntimeFeature))
    (requesting_component : ComponentDefinition) (feature_name : String) :
    Option RuntimeFeature :=
  match lookupByKey runtime_features feature_name with
  | some rf =>
    match rf.enables with
    | "none" => none
    | "any" => some rf
    | "exposed" => if requesting_component.exposed then some rf else none
    | "unexposed" => if !requesting_component.exposed then some rf else none
    | "package" => none
    | "namespace" => none
    | _ => none
  | none => none

/-- `ComponentRegistry::get_enabled_component_dependency` (src/registry.rs):
resolve the dependency's `EnablingComponent` record and apply its scope; for
`package` / `namespace` both the requester's parsed metadata field and the
enabling component's field must be present and equal. -/
def get_enabled_component_dependency (reg : ComponentRegistry)
    (requesting_component : ComponentDefinition)
    (requesting_metadata : ComponentMetadata) (dependency_name : String) :
    Option ComponentSpec :=
  match lookupByKey reg.enabling_components dependency_name with
  | some enabling_component =>
    match enabling_component.enables with
    | "none" => none
    | "any" => some enabling_component.component
    | "exposed" =>
      if requesting_component.exposed then some enabling_component.component else none
    | "unexposed" =>
      if !requesting_component.exposed then some enabling_component.component else none
    | "package" =>
      match requesting_metadata.package, enabling_component.component.package with
      | some req_pkg, some enable_pkg =>
        if req_pkg = enable_pkg then some enabling_component.component else none
      | _, _ => none
    | "namespace" =>
      match requesting_metadata.nspace, enabling_component.component.nspace with
      | some req_ns, some enable_ns =>
        if req_ns = enable_ns then some enabling_component.component else none
      | _, _ => none
    | _ => none
  | none => none

/-- The dependency-composition loop of `process_component`: fold the
incoming-edge providers (graph order) over the accumulated bytes, import list
and runtime-feature set.  A disabled component dependency or disabled runtime
feature is fatal; a composed dependency's exports are removed from the
imports and its runtime features merged (the `HashSet` union modelled as a
dedup-preserving list fold). -/
def processDeps (g : ComponentGraph) (creg : ComponentRegistry)
    (rfr : List (String × RuntimeFeature)) (env : Env)
    (definition : ComponentDefinition) (metadata : ComponentMetadata) :
    List Nat → Bytes → List String → List String →
    Except RtError (Bytes × List String × List String)
  | [], bytes, imports, features => .ok (bytes, imports, features)
  | depIdx :: rest, bytes, imports, features =>
    match g.nodes[depIdx]? with
    | some (Node.component dependency_def) =>
      match get_enabled_component_dependency creg definition metadata dependency_def.name with
      | some component_spec =>
        match env.composeComponents bytes component_spec.bytes with
        | none => .error (.composeFailed definition.name dependency_def.name)
        | some bytes' =>
          let imports' := imports.filter (fun i => !(component_spec.exports.contains i))
          let features' := component_spec.runtime_features.foldl
            (fun acc f => if acc.contains f then acc else acc ++ [f]) features
          processDeps g creg rfr env definition metadata rest bytes' imports' features'
      | none => .error (.dependencyDisabled definition.name dependency_def.name)
    | some (Node.runtimeFeature feature_def) =>
      if (get_enabled_runtime_feature rfr definition feature_def.name).isSome then
        let features' := if features.contains feature_def.name then features
          else features ++ [feature_def.name]
        processDeps g creg rfr env definition metadata rest bytes imports features'
      else .error (.featureDisabled definition.name feature_def.name)
    | none => processDeps g creg rfr env definition metadata rest bytes imports features

/-- `process_component` (src/registry.rs): fetch and parse the bytes, compose
with the config provider when `wasi:config/store*` is imported (dropping
those imports), compose the enabled dependencies in graph order, collect the
interfaces of the accumulated runtime features, and fail on any remaining
unsatisfied import; otherwise build the `ComponentSpec`. -/
def process_component (node_index : Nat) (g : ComponentGraph)
    (creg : ComponentRegistry) (rfr : List (String × RuntimeFeature)) (env : Env) :
    Except RtError ComponentSpec :=
  match g.nodes[node_index]? with
  | some (Node.component definition) =>
    match env.readBytes definition.uri with
    | none => .error (.ioError definition.uri)
    | some bytes0 =>
      match env.parse bytes0 definition.exposed with
      | none => .error (.parseFailed definition.name)
      | some (metadata, imports0, exports, functions) =>
        let imports_config := imports0.any (fun i => strHasPre "wasi:config/store" i)
        let afterConfig : Except RtError (Bytes × List String) :=
          if imports_config then
            let config_to_use := definition.config.getD []
            match env.composeWithConfig bytes0 config_to_use with
            | none => .error (.composeConfigFailed definition.name)
            | some bytes1 =>
              .ok (bytes1, imports0.filter (fun i => !(strHasPre "wasi:config/store" i)))
          else .ok (bytes0, imports0)
        match afterConfig with
        | .error e => .error e
        | .ok (bytes1, imports1) =>
          match processDeps g creg rfr env definition metadata
              (get_dependencies g node_index) bytes1 imports1 [] with
          | .error e => .error e
          | .ok (bytes2, imports2, features) =>
            let runtime_interfaces := (features.map
              (fun n => match lookupByKey rfr n with
                | some rf => rf.interfaces
                | none => [])).flatten
            let unsatisfied := imports2.filter
              (fun i => !(is_import_satisfied i runtime_interfaces))
            if unsatisfied.isEmpty then
              .ok ⟨definition.name, metadata.nspace, metadata.package, bytes2,
                imports2, exports, features, functions⟩
            else .error (.unsatisfiedImports definition.name unsatisfied)
  | _ => .error .notComponentNode

/-- The component walk of `build_registries`: process the nodes in build
order, threading the scratch maps.  A failing exposed component is skipped
with a warning; a failing non-exposed component aborts the whole build with
its error.  A successful component is recorded, additionally under the
exposed map when exposed and under the enabling map when `enables != "none"`. -/
def buildLoop (g : ComponentGraph) (rfr : List (String × RuntimeFeature)) (env : Env) :
    List Nat → List (String × ComponentSpec) → List (String × ComponentSpec) →
    List (String × EnablingComponent) →
    Except RtError (List (String × ComponentSpec) × List (String × EnablingComponent))
  | [], _, exposedAcc, enabling => .ok (exposedAcc, enabling)
  | idx :: rest, built, exposedAcc, enabling =>
    match g.nodes[idx]? with
    | some (Node.component definition) =>
      match process_component idx g ⟨built, enabling⟩ rfr env with
      | .ok component_spec =>
        let built' := insertByKey built definition.name component_spec
        let exposed' := if definition.exposed then
            insertByKey exposedAcc definition.name component_spec
          else exposedAcc
        let enabling' := if definition.enables ≠ "none" then
            insertByKey enabling definition.name
              ⟨component_spec, definition.exposed, definition.enables⟩
          else enabling
        buildLoop g rfr env rest built' exposed' enabling'
      | .error e =>
        if definition.exposed then buildLoop g rfr env rest built exposedAcc enabling
        else .error e
    | _ => buildLoop g rfr env rest built exposedAcc enabling

/-- `build_registries` (src/registry.rs): materialize the runtime-feature
registry from the graph's feature nodes, then walk the components in
topological order; the public component map holds only the exposed
components. -/
def build_registries (g : ComponentGraph) (factories : List (String × Factory))
    (env : Env) :
    Except RtError (List (String × RuntimeFeature) × ComponentRegistry) := do
  let runtime_feature_definitions := g.nodes.filterMap
    (fun n => match n with
      | .runtimeFeature d => some d
      | _ => none)
  let rfr ← create_runtime_feature_registry runtime_feature_definitions factories
  let (exposedAcc, enabling) ← buildLoop g rfr env (get_build_order g) [] [] []
  .ok (rfr, ⟨exposedAcc, enabling⟩)

/-! ## Concrete configurations used by counterexample and witness theorems -/

/-- A component definition with everything defaulted (manifest defaults:
`enables = "none"`, no expects/intercepts, precedence 0, not exposed). -/
def mkComp (name : String) : ComponentDefinition :=
  ⟨name, name ++ ".wasm", "none", [], [], 0, false, none⟩

/-- Five components whose redirection chains interfere: `c` consumes `p`,
which is intercepted by `i1` (precedence 1) and `i2` (precedence 2); `i1`
additionally intercepts `d`, and `i2` depends on `d`.  The chain for `(p, c)`
adds the edge `i1 -> i2` labelled `Interceptor 2`, while the redirection of
the `d -> i2` edge adds the same pair labelled `Dependency`, which is applied
later and wins. -/
def cexC1defs : List ComponentDefinition :=
  [{ mkComp "c" with expects := ["p"], exposed := true },
   { mkComp "i1" with intercepts := ["p", "d"], enables := "any", precedence := 1 },
   { mkComp "i2" with intercepts := ["p"], expects := ["d"], enables := "any", precedence := 2 },
   mkComp "p",
   mkComp "d"]

/-- Specification scenario 5 (two interceptors ordered by precedence):
`client` enabled for all, intercepted by `outer` (precedence 99) and `inner`
(precedence 1), consumed by the exposed `handler`. -/
def witC1defs : List ComponentDefinition :=
  [{ mkComp "client" with enables := "any" },
   { mkComp "outer" with intercepts := ["client"], enables := "any", precedence := 99 },
   { mkComp "inner" with intercepts := ["client"], enables := "any", precedence := 1 },
   { mkComp "handler" with expects := ["client"], exposed := true }]

/-- Specification scenario 3 (a two-cycle): `a` expects `b` and `b` expects
`a`. -/
def cycC6defs : List ComponentDefinition :=
  [{ mkComp "a" with expects := ["b"] },
   { mkComp "b" with expects := ["a"] }]

/-- An exposed component `a` depending on a component `d` whose
`enables = "none"` scope denies access: processing `a` fails with a
dependency-disabled error (not an unsatisfied-imports error), yet the build
skips `a` and succeeds. -/
def cexC2defs : List ComponentDefinition :=
  [mkComp "d",
   { mkComp "a" with expects := ["d"], exposed := true }]

/-- An environment in which every fetch, parse and composition succeeds and
every component parses with no imports, no exports and no metadata. -/
def trivialEnv : Env :=
  ⟨fun _ => some 0, fun _ _ => some (⟨none, none⟩, [], [], none),
   fun _ _ => some 1, fun _ _ => some 2⟩

/-- The graph of `cexC2defs` as the builder returns it. -/
def cexC2graph : ComponentGraph :=
  ⟨buildNodes cexC2defs [], initialEdges cexC2defs (nodeMapOf cexC2defs []),
   nodeMapOf cexC2defs []⟩

/-- The `ComponentSpec` built for `d` in `cexC2defs` under `trivialEnv`. -/
def cexC2specD : ComponentSpec := ⟨"d", none, none, 0, [], [], [], none⟩

/-- Two exposed components, `a` expecting `b`, in an environment where `b`'s
bytes are unreadable: both fail during processing (`b` with an I/O error, `a`
with a disabled dependency), both are skipped, the build succeeds. -/
def witC2defs : List ComponentDefinition :=
  [{ mkComp "b" with exposed := true },
   { mkComp "a" with expects := ["b"], exposed := true }]

/-- `trivialEnv` except that `b.wasm` cannot be read. -/
def witC2env : Env :=
  { trivialEnv with readBytes := fun u => if u == "b.wasm" then none else some 0 }

/-- The graph of `witC2defs`. -/
def witC2graph : ComponentGraph :=
  ⟨buildNodes witC2defs [], initialEdges witC2defs (nodeMapOf witC2defs []),
   nodeMapOf witC2defs []⟩

/-- `Except.isOk` as a plain definition (for binder-free statements). -/
def exceptIsOk {ε α : Type} : Except ε α → Bool
  | .ok _ => true
  | .error _ => false

/-- `k`-fold `some`-nesting around `option none` (`nestedSome 0` is the value
`none`, `nestedSome (k+1)` is `some (nestedSome k)`). -/
def nestedSome : Nat → Val
  | 0 => .option none
  | k + 1 => .option (some (nestedSome k))

/-- A record type exercising list, option-record, tuple, char and an absent
optional field, for the round-trip witness. -/
def witC5ty : Ty :=
  .record [("a", .list .u16), ("b", .option (.record [("c", .char)])),
           ("d", .tuple [.bool, .s8]), ("e", .option .u32)]

/-- A JSON value matching `witC5ty` with the `"e"` field absent. -/
def witC5json : Json :=
  .obj [("a", .arr [.num 1, .num 65535]), ("b", .obj [("c", .str "k")]),
        ("d", .arr [.bool true, .num (-5)])]

/-- The Component-Model value `witC5json` converts to at `witC5ty`. -/
def witC5val : Val :=
  .record [("a", .list [.u16 1, .u16 65535]),
           ("b", .option (some (.record [("c", .char 'k')]))),
           ("d", .tuple [.bool true, .s8 (-5)]),
           ("e", .option none)]

/-- Loader witness: an exposed component may expect an undefined name, an
unexposed one may not. -/
def witC7okComps : List ComponentDefinition :=
  [{ mkComp "h" with exposed := true, expects := ["ghost"] }]

/-- Loader witness: the same expectation on an unexposed component. -/
def witC7badComps : List ComponentDefinition :=
  [{ mkComp "u" with expects := ["ghost"] }]

/-- An enabling component scoped `package`, with package `acme:core`. -/
def witC8enabling : EnablingComponent :=
  ⟨⟨"prov", some "acme", some "acme:core", 0, [], [], [], none⟩, false, "package"⟩

/-- A registry holding only `witC8enabling` under the name `prov`. -/
def witC8reg : ComponentRegistry := ⟨[], [("prov", witC8enabling)]⟩

/-! # Theorems -/

/-! ## Association-list (`HashMap`) lemmas -/

theorem find_replaced_self {α β : Type} [BEq α] [LawfulBEq α]
    (l : List (α × β)) (k : α) (v : β) (hany : l.any (fun kv => kv.1 == k) = true) :
    List.find? (fun kv => kv.1 == k)
      (l.map (fun kv => if kv.1 == k then (k, v) else kv)) = some (k, v) := by
  induction l with
  | nil => simp at hany
  | cons kv rest ih =>
    by_cases hk : (kv.1 == k) = true
    · simp [List.find?, hk]
    · simp only [List.any_cons, hk, Bool.false_or] at hany
      simp only [List.map_cons, hk, Bool.false_eq_true, if_false]
      rw [List.find?]
      simp only [hk, Bool.false_eq_true, if_false]
      exact ih hany

theorem find_replaced_ne {α β : Type} [BEq α] [LawfulBEq α]
    (l : List (α × β)) (k k' : α) (v : β) (h : k' ≠ k) :
    List.find? (fun kv => kv.1 == k')
      (l.map (fun kv => if kv.1 == k then (k, v) else kv)) =
      List.find? (fun kv => kv.1 == k') l := by
  induction l with
  | nil => simp
  | cons kv rest ih =>
    simp only [List.map_cons]
    rw [List.find?, List.find?]
    by_cases hk : (kv.1 == k) = true
    · have hkv : kv.1 = k := by simpa using hk
      have h1 : (k == k') = false := by
        simp only [beq_eq_false_iff_ne, ne_eq]
        exact fun hkk => h hkk.symm
      have h2 : (kv.1 == k') = false := by
        rw [hkv]
        exact h1
      simp only [hk, if_true, h1, h2, Bool.false_eq_true, if_false]
      exact ih
    · simp only [hk, Bool.false_eq_true, if_false]
      by_cases hk' : (kv.1 == k') = true
      · simp [hk']
      · simp only [hk', Bool.false_eq_true, if_false]
        exact ih

theorem lookupByKey_insert_self {α β : Type} [BEq α] [LawfulBEq α]
    (l : List (α × β)) (k : α) (v : β) :
    lookupByKey (insertByKey l k v) k = some v := by
  unfold insertByKey
  split
  · rename_i hany
    unfold lookupByKey
    rw [find_replaced_self l k v hany]
    rfl
  · rename_i hany
    unfold lookupByKey
    rw [List.find?_append]
    have hnone : (l.find? (fun kv => kv.1 == k)) = none := by
      rw [List.find?_eq_none]
      intro x hx hpx
      exact hany (List.any_eq_true.mpr ⟨x, hx, hpx⟩)
    simp [hnone, List.find?]

theorem lookupByKey_insert_ne {α β : Type} [BEq α] [LawfulBEq α]
    (l : List (α × β)) (k k' : α) (v : β) (h : k' ≠ k) :
    lookupByKey (insertByKey l k v) k' = lookupByKey l k' := by
  unfold insertByKey
  split
  · unfold lookupByKey
    rw [find_replaced_ne l k k' v h]
  · unfold lookupByKey
    rw [List.find?_append]
    have hsingle : List.find? (fun kv => kv.1 == k') [(k, v)] = none := by
      rw [List.find?_eq_none]
      intro x hx hpx
      have hxkv : x = (k, v) := by simpa using hx
      have : k = k' := by
        have := hpx
        rw [hxkv] at this
        simpa using this
      exact h this.symm
    rw [hsingle]
    cases List.find? (fun kv => kv.1 == k') l <;> rfl

theorem lookupByKey_eq_none_of_keys {α β : Type} [BEq α] [LawfulBEq α]
    (l : List (α × β)) (k : α) (h : ∀ e ∈ l, e.1 ≠ k) :
    lookupByKey l k = none := by
  unfold lookupByKey
  have : List.find? (fun kv => kv.1 == k) l = none := by
    rw [List.find?_eq_none]
    intro x hx hpx
    exact h x hx (by simpa using hpx)
  simp [this]

/-! ## String-decomposition lemmas (for C3) -/

theorem rsplitOnceChar_eq_none (c : Char) (cs : List Char) :
    rsplitOnceChar c cs = none ↔ c ∉ cs := by
  induction cs with
  | nil => simp [rsplitOnceChar]
  | cons x rest ih =>
    rw [rsplitOnceChar]
    cases h : rsplitOnceChar c rest with
    | some p =>
      have hmem : c ∈ rest := by
        by_contra hc
        rw [ih.mpr hc] at h
        exact Option.noConfusion h
      simp [hmem]
    | none =>
      by_cases hx : x = c
      · simp [hx]
      · have : c ∉ rest := ih.mp h
        simp [hx, this]
        exact fun hcx => hx hcx.symm

theorem rsplitOnceChar_eq_some (c : Char) (cs : List Char) :
    ∀ a b, rsplitOnceChar c cs = some (a, b) ↔ cs = a ++ c :: b ∧ c ∉ b := by
  induction cs with
  | nil =>
    intro a b
    simp [rsplitOnceChar]
  | cons x rest ih =>
    intro a b
    rw [rsplitOnceChar]
    cases h : rsplitOnceChar c rest with
    | some p =>
      obtain ⟨a', b'⟩ := p
      obtain ⟨hrest, hnb'⟩ := (ih a' b').mp h
      constructor
      · intro heq
        have hab := Option.some.inj heq
        have ha : a = x :: a' := (congrArg Prod.fst hab).symm
        have hb : b = b' := (congrArg Prod.snd hab).symm
        subst ha
        subst hb
        exact ⟨by rw [hrest]; rfl, hnb'⟩
      · rintro ⟨hdecomp, hnb⟩
        cases a with
        | nil =>
          simp only [List.nil_append, List.cons.injEq] at hdecomp
          have hnone : rsplitOnceChar c rest = none :=
            (rsplitOnceChar_eq_none c rest).mpr (by rw [hdecomp.2]; exact hnb)
          rw [hnone] at h
          exact Option.noConfusion h
        | cons y a'' =>
          simp only [List.cons_append, List.cons.injEq] at hdecomp
          obtain ⟨hxy, hr⟩ := hdecomp
          have h2 := (ih a'' b).mpr ⟨hr, hnb⟩
          rw [h2] at h
          have hab := Option.some.inj h
          have h3 : a'' = a' := congrArg Prod.fst hab
          have h4 : b = b' := congrArg Prod.snd hab
          rw [hxy, h3, h4]
    | none =>
      have hnrest : c ∉ rest := (rsplitOnceChar_eq_none c rest).mp h
      by_cases hx : x = c
      · subst hx
        rw [if_pos rfl]
        constructor
        · intro heq
          have hab := Option.some.inj heq
          have ha : a = [] := (congrArg Prod.fst hab).symm
          have hb : b = rest := (congrArg Prod.snd hab).symm
          subst ha
          subst hb
          exact ⟨rfl, hnrest⟩
        · rintro ⟨hdecomp, hnb⟩
          cases a with
          | nil =>
            simp only [List.nil_append, List.cons.injEq] at hdecomp
            rw [hdecomp.2]
          | cons y a'' =>
            simp only [List.cons_append, List.cons.injEq] at hdecomp
            have hmem : x ∈ rest := by
              rw [hdecomp.2]
              exact List.mem_append_right a'' (List.mem_cons_self x b)
            exact absurd hmem hnrest
      · rw [if_neg hx]
        constructor
        · intro heq
          exact Option.noConfusion heq
        · rintro ⟨hdecomp, hnb⟩
          cases a with
          | nil =>
            simp only [List.nil_append, List.cons.injEq] at hdecomp
            exact absurd hdecomp.1 hx
          | cons y a'' =>
            simp only [List.cons_append, List.cons.injEq] at hdecomp
            have hmem : c ∈ rest := by
              rw [hdecomp.2]
              exact List.mem_append_right a'' (List.mem_cons_self c b)
            exact absurd hmem hnrest

theorem splitOnChar_ne_nil (c : Char) (cs : List Char) : splitOnChar c cs ≠ [] := by
  cases cs with
  | nil => simp [splitOnChar]
  | cons x rest =>
    rw [splitOnChar]
    by_cases hx : x = c
    · rw [if_pos hx]
      simp
    · rw [if_neg hx]
      cases h : splitOnChar c rest with
      | nil => simp [consHead]
      | cons a t => simp [consHead]

theorem splitOnChar_eq_single (c : Char) (cs : List Char) :
    ∀ a, splitOnChar c cs = [a] ↔ cs = a ∧ c ∉ a := by
  induction cs with
  | nil =>
    intro a
    rw [splitOnChar]
    simp only [List.cons.injEq, and_true]
    constructor
    · intro h
      exact ⟨h, by rw [← h]; simp⟩
    · rintro ⟨h, _⟩
      exact h
  | cons x rest ih =>
    intro a
    rw [splitOnChar]
    by_cases hx : x = c
    · rw [if_pos hx]
      constructor
      · intro h
        exact absurd (List.cons.inj h).2 (splitOnChar_ne_nil c rest)
      · rintro ⟨hca, hna⟩
        have hmem : c ∈ a := by
          rw [← hca, ← hx]
          exact List.mem_cons_self x rest
        exact absurd hmem hna
    · rw [if_neg hx]
      cases h : splitOnChar c rest with
      | nil => exact absurd h (splitOnChar_ne_nil c rest)
      | cons p t =>
        simp only [consHead]
        constructor
        · intro heq
          have h1 : x :: p = a := (List.cons.inj heq).1
          have h2 : t = [] := (List.cons.inj heq).2
          rw [h2] at h
          obtain ⟨hrp, hnp⟩ := (ih p).mp h
          constructor
          · rw [← h1, hrp]
          · rw [← h1]
            simp only [List.mem_cons, not_or]
            exact ⟨fun hcx => hx hcx.symm, hnp⟩
        · rintro ⟨hca, hna⟩
          cases a with
          | nil => exact absurd hca (List.cons_ne_nil x rest)
          | cons y a' =>
            have hxy : x = y := (List.cons.inj hca).1
            have hra : rest = a' := (List.cons.inj hca).2
            simp only [List.mem_cons, not_or] at hna
            have h2 := (ih a').mpr ⟨hra, hna.2⟩
            rw [h2] at h
            have hp : a' = p := (List.cons.inj h).1
            have ht : ([] : List (List Char)) = t := (List.cons.inj h).2
            rw [← ht, ← hp, hxy]

theorem splitOnChar_eq_cons (c : Char) (cs : List Char) :
    ∀ a ps, ps ≠ [] →
      (splitOnChar c cs = a :: ps ↔
        ∃ rest, cs = a ++ c :: rest ∧ c ∉ a ∧ splitOnChar c rest = ps) := by
  induction cs with
  | nil =>
    intro a ps hps
    rw [splitOnChar]
    constructor
    · intro h
      exact absurd ((List.cons.inj h).2).symm hps
    · rintro ⟨rest, hdecomp, -, -⟩
      exact absurd hdecomp.symm (by simp)
  | cons x rest ih =>
    intro a ps hps
    rw [splitOnChar]
    by_cases hx : x = c
    · subst hx
      rw [if_pos rfl]
      constructor
      · intro h
        have h1 : ([] : List Char) = a := (List.cons.inj h).1
        have h2 : splitOnChar x rest = ps := (List.cons.inj h).2
        exact ⟨rest, by rw [← h1]; rfl, by rw [← h1]; simp, h2⟩
      · rintro ⟨r, hdecomp, hna, hsplit⟩
        cases a with
        | nil =>
          simp only [List.nil_append, List.cons.injEq] at hdecomp
          rw [hdecomp.2, hsplit]
        | cons y a' =>
          simp only [List.cons_append, List.cons.injEq] at hdecomp
          simp only [List.mem_cons, not_or] at hna
          exact absurd hdecomp.1 hna.1
    · rw [if_neg hx]
      cases h : splitOnChar c rest with
      | nil => exact absurd h (splitOnChar_ne_nil c rest)
      | cons p t =>
        simp only [consHead]
        constructor
        · intro heq
          have h1 : x :: p = a := (List.cons.inj heq).1
          have h2 : t = ps := (List.cons.inj heq).2
          rw [h2] at h
          by_cases hpt : ps = []
          · exact absurd hpt hps
          · obtain ⟨r, hrd, hnp, hsp⟩ := (ih p ps hps).mp h
            refine ⟨r, ?_, ?_, hsp⟩
            · rw [← h1, hrd]
              rfl
            · rw [← h1]
              simp only [List.mem_cons, not_or]
              exact ⟨fun hcx => hx hcx.symm, hnp⟩
        · rintro ⟨r, hdecomp, hna, hsplit⟩
          cases a with
          | nil =>
            simp only [List.nil_append, List.cons.injEq] at hdecomp
            exact absurd hdecomp.1 hx
          | cons y a' =>
            simp only [List.cons_append, List.cons.injEq] at hdecomp
            obtain ⟨hxy, hr⟩ := hdecomp
            simp only [List.mem_cons, not_or] at hna
            have h2 := (ih a' ps hps).mpr ⟨r, hr, hna.2, hsplit⟩
            rw [h2] at h
            have hp : a' = p := (List.cons.inj h).1
            have ht : ps = t := (List.cons.inj h).2
            rw [← ht, ← hp, hxy]

theorem splitOnChar_eq_three (c : Char) (cs : List Char) (a b d : List Char) :
    splitOnChar c cs = [a, b, d] ↔
      cs = a ++ c :: b ++ c :: d ∧ c ∉ a ∧ c ∉ b ∧ c ∉ d := by
  rw [splitOnChar_eq_cons c cs a [b, d] (by simp)]
  constructor
  · rintro ⟨r, hdecomp, hna, hsplit⟩
    rw [splitOnChar_eq_cons c r b [d] (by simp)] at hsplit
    obtain ⟨r2, hrd, hnb, hsplit2⟩ := hsplit
    obtain ⟨hr2d, hnd⟩ := (splitOnChar_eq_single c r2 d).mp hsplit2
    subst hr2d
    refine ⟨?_, hna, hnb, hnd⟩
    rw [hdecomp, hrd]
    simp
  · rintro ⟨hdecomp, hna, hnb, hnd⟩
    refine ⟨b ++ c :: d, by rw [hdecomp]; simp, hna, ?_⟩
    rw [splitOnChar_eq_cons c _ b [d] (by simp)]
    exact ⟨d, rfl, hnb, (splitOnChar_eq_single c d d).mpr ⟨rfl, hnd⟩⟩

/-! ## Numeral and semver lemmas (for C3) -/

theorem parseU32Digits_eq_some (ds : List Char) (n : Nat) :
    parseU32Digits ds = some n ↔
      ds ≠ [] ∧ (∀ d ∈ ds, d.isDigit) ∧ digitsVal ds = n ∧ n < 4294967296 := by
  unfold parseU32Digits
  by_cases h1 : ds.isEmpty
  · rw [if_pos h1]
    simp [List.isEmpty_iff.mp h1]
  · rw [if_neg h1]
    have hne : ds ≠ [] := fun h => h1 (by rw [h]; rfl)
    by_cases h2 : ds.all (fun d => d.isDigit)
    · rw [if_pos h2]
      have hdig : ∀ d ∈ ds, d.isDigit := fun d hd => List.all_eq_true.mp h2 d hd
      by_cases h3 : digitsVal ds < 4294967296
      · rw [if_pos h3]
        constructor
        · intro h
          have := Option.some.inj h
          exact ⟨hne, hdig, this, this ▸ h3⟩
        · rintro ⟨-, -, hval, -⟩
          rw [hval]
      · rw [if_neg h3]
        constructor
        · intro h
          exact Option.noConfusion h
        · rintro ⟨-, -, hval, hlt⟩
          exact absurd (hval ▸ hlt) h3
    · rw [if_neg h2]
      constructor
      · intro h
        exact Option.noConfusion h
      · rintro ⟨-, hdig, -, -⟩
        exact absurd (List.all_eq_true.mpr (fun d hd => hdig d hd)) h2

theorem parseU32Chars_eq_some (cs : List Char) (n : Nat) :
    parseU32Chars cs = some n ↔ NumeralVal cs n := by
  unfold parseU32Chars NumeralVal
  by_cases hplus : cs.head? = some '+'
  · rw [if_pos hplus]
    cases cs with
    | nil => exact absurd hplus (by simp)
    | cons x rest =>
      have hx : x = '+' := by
        have := hplus
        simp only [List.head?] at this
        exact Option.some.inj this
      subst hx
      simp only [List.tail]
      rw [parseU32Digits_eq_some]
      constructor
      · rintro ⟨hne, hdig, hval, hlt⟩
        exact ⟨rest, Or.inr rfl, hne, hdig, hval, hlt⟩
      · rintro ⟨ds, hor, hne, hdig, hval, hlt⟩
        cases hor with
        | inl h =>
          have hmem : '+' ∈ ds := by rw [← h]; exact List.mem_cons_self _ _
          have : ('+' : Char).isDigit := hdig _ hmem
          exact absurd this (by decide)
        | inr h =>
          have : rest = ds := (List.cons.inj h).2
          subst this
          exact ⟨hne, hdig, hval, hlt⟩
  · rw [if_neg hplus]
    rw [parseU32Digits_eq_some]
    constructor
    · rintro ⟨hne, hdig, hval, hlt⟩
      exact ⟨cs, Or.inl rfl, hne, hdig, hval, hlt⟩
    · rintro ⟨ds, hor, hne, hdig, hval, hlt⟩
      cases hor with
      | inl h =>
        subst h
        exact ⟨hne, hdig, hval, hlt⟩
      | inr h =>
        have : cs.head? = some '+' := by rw [h]; rfl
        exact absurd this hplus

theorem numeralVal_not_mem (cs : List Char) (n : Nat) (h : NumeralVal cs n)
    (ch : Char) (h1 : ch ≠ '+') (h2 : ch.isDigit = false) : ch ∉ cs := by
  obtain ⟨ds, hor, -, hdig, -, -⟩ := h
  intro hmem
  cases hor with
  | inl hc =>
    subst hc
    rw [hdig ch hmem] at h2
    exact Bool.noConfusion h2
  | inr hc =>
    subst hc
    cases List.mem_cons.mp hmem with
    | inl hp => exact h1 hp
    | inr hp =>
      rw [hdig ch hp] at h2
      exact Bool.noConfusion h2

theorem parse_semver_eq_some (v : String) (M N P : Nat) :
    parse_semver v = some (M, N, P) ↔
      ∃ a b d : List Char, v.data = a ++ '.' :: b ++ '.' :: d ∧
        NumeralVal a M ∧ NumeralVal b N ∧ NumeralVal d P := by
  constructor
  · intro hp
    unfold parse_semver at hp
    cases hsp : splitOnChar '.' v.data with
    | nil => rw [hsp] at hp; exact Option.noConfusion hp
    | cons a t1 =>
      cases t1 with
      | nil => rw [hsp] at hp; exact Option.noConfusion hp
      | cons b t2 =>
        cases t2 with
        | nil => rw [hsp] at hp; exact Option.noConfusion hp
        | cons d t3 =>
          cases t3 with
          | cons e t4 => rw [hsp] at hp; exact Option.noConfusion hp
          | nil =>
            rw [hsp] at hp
            have hp2 : (match parseU32Chars a, parseU32Chars b, parseU32Chars d with
              | some major, some minor, some patch => some (major, minor, patch)
              | _, _, _ => none) = some (M, N, P) := hp
            obtain ⟨hdecomp, -, -, -⟩ := (splitOnChar_eq_three '.' v.data a b d).mp hsp
            cases hpa : parseU32Chars a with
            | none => rw [hpa] at hp2; exact Option.noConfusion hp2
            | some x =>
              cases hpb : parseU32Chars b with
              | none => rw [hpa, hpb] at hp2; exact Option.noConfusion hp2
              | some y =>
                cases hpd : parseU32Chars d with
                | none => rw [hpa, hpb, hpd] at hp2; exact Option.noConfusion hp2
                | some z =>
                  rw [hpa, hpb, hpd] at hp2
                  have htriple := Option.some.inj hp2
                  have hx : x = M := congrArg (fun t => t.1) htriple
                  have hy : y = N := congrArg (fun t => t.2.1) htriple
                  have hz : z = P := congrArg (fun t => t.2.2) htriple
                  exact ⟨a, b, d, hdecomp, hx ▸ (parseU32Chars_eq_some a x).mp hpa,
                    hy ▸ (parseU32Chars_eq_some b y).mp hpb,
                    hz ▸ (parseU32Chars_eq_some d z).mp hpd⟩
  · rintro ⟨a, b, d, hdecomp, hA, hB, hD⟩
    have hna : ('.' : Char) ∉ a := numeralVal_not_mem a M hA '.' (by decide) (by decide)
    have hnb : ('.' : Char) ∉ b := numeralVal_not_mem b N hB '.' (by decide) (by decide)
    have hnd : ('.' : Char) ∉ d := numeralVal_not_mem d P hD '.' (by decide) (by decide)
    have hsp := (splitOnChar_eq_three '.' v.data a b d).mpr ⟨hdecomp, hna, hnb, hnd⟩
    unfold parse_semver
    rw [hsp]
    show (match parseU32Chars a, parseU32Chars b, parseU32Chars d with
      | some major, some minor, some patch => some (major, minor, patch)
      | _, _, _ => none) = some (M, N, P)
    rw [(parseU32Chars_eq_some a M).mpr hA, (parseU32Chars_eq_some b N).mpr hB,
      (parseU32Chars_eq_some d P).mpr hD]

theorem numeralVal_ne_at (cs : List Char) (n : Nat) (h : NumeralVal cs n) :
    ('@' : Char) ∉ cs :=
  numeralVal_not_mem cs n h '@' (by decide) (by decide)

theorem semverForm_iff (s name : String) (M N P : Nat) :
    SemverForm s name M N P ↔
      ∃ ver : String, rsplit_once s '@' = some (name, ver) ∧
        parse_semver ver = some (M, N, P) := by
  constructor
  · rintro ⟨a, b, d, hdecomp, hA, hB, hD⟩
    have hnoat : ('@' : Char) ∉ a ++ '.' :: b ++ '.' :: d := by
      intro hm
      rcases List.mem_append.mp hm with hm1 | hm2
      · rcases List.mem_append.mp hm1 with hma | hmb
        · exact numeralVal_ne_at a M hA hma
        · rcases List.mem_cons.mp hmb with hdot | hmb2
          · exact absurd hdot (by decide)
          · exact numeralVal_ne_at b N hB hmb2
      · rcases List.mem_cons.mp hm2 with hdot | hmd
        · exact absurd hdot (by decide)
        · exact numeralVal_ne_at d P hD hmd
    have hr : rsplitOnceChar '@' s.data = some (name.data, a ++ '.' :: b ++ '.' :: d) :=
      (rsplitOnceChar_eq_some '@' s.data name.data _).mpr ⟨hdecomp, hnoat⟩
    refine ⟨⟨a ++ '.' :: b ++ '.' :: d⟩, ?_, ?_⟩
    · unfold rsplit_once
      rw [hr]
      rfl
    · exact (parse_semver_eq_some _ M N P).mpr ⟨a, b, d, rfl, hA, hB, hD⟩
  · rintro ⟨ver, hr, hp⟩
    unfold rsplit_once at hr
    cases hrc : rsplitOnceChar '@' s.data with
    | none => rw [hrc] at hr; exact Option.noConfusion hr
    | some q =>
      obtain ⟨na, vb⟩ := q
      rw [hrc] at hr
      have hq := Option.some.inj hr
      have hname : (⟨na⟩ : String) = name := congrArg Prod.fst hq
      have hver : (⟨vb⟩ : String) = ver := congrArg Prod.snd hq
      obtain ⟨hdecomp, -⟩ := (rsplitOnceChar_eq_some '@' s.data na vb).mp hrc
      obtain ⟨a, b, d, hvd, hA, hB, hD⟩ := (parse_semver_eq_some ver M N P).mp hp
      refine ⟨a, b, d, ?_, hA, hB, hD⟩
      rw [hdecomp, ← hname, ← hver] at *
      rw [show na = (⟨na⟩ : String).data from rfl]
      rw [show vb = (⟨vb⟩ : String).data from rfl] at hvd ⊢
      rw [hvd]

/-! ## C3 — import satisfaction -/

/-- C3: an import is satisfied exactly when it is literally among the
provided interfaces, or both the import and some provided interface split at
their last `@` into the same name and numeric three-part versions with equal
major, equal minor, and provided patch at least the requested patch; no
other import is satisfied. -/
theorem is_import_satisfied_iff (imp : String) (runtime_interfaces : List String) :
    is_import_satisfied imp runtime_interfaces = true ↔
      ImportSatisfiedSpec imp runtime_interfaces := by
  unfold is_import_satisfied ImportSatisfiedSpec
  by_cases hc : runtime_interfaces.contains imp = true
  · rw [if_pos hc]
    have hmem : imp ∈ runtime_interfaces := List.elem_iff.mp hc
    simp [hmem]
  · rw [if_neg hc]
    have hnotmem : imp ∉ runtime_interfaces := fun hm => hc (List.elem_iff.mpr hm)
    simp only [hnotmem, false_or]
    cases hr : rsplit_once imp '@' with
    | none =>
      constructor
      · intro h
        exact absurd h (by simp)
      · rintro ⟨name, M, N, P, hsf, -⟩
        obtain ⟨ver, hrs, -⟩ := (semverForm_iff imp name M N P).mp hsf
        rw [hr] at hrs
        exact Option.noConfusion hrs
    | some p =>
      obtain ⟨iname, iver⟩ := p
      show (match parse_semver iver with
        | some requested_semver =>
          runtime_interfaces.any fun available =>
            match rsplit_once available '@' with
            | some (available_name, available_version) =>
              iname == available_name &&
                match parse_semver available_version with
                | some available_semver =>
                  available_semver.1 == requested_semver.1 &&
                    available_semver.2.1 == requested_semver.2.1 &&
                    decide (requested_semver.2.2 ≤ available_semver.2.2)
                | none => false
            | none => false
        | none => false) = true ↔
        (∃ name major minor patch, SemverForm imp name major minor patch ∧
          ∃ avail ∈ runtime_interfaces, ∃ x y z,
            SemverForm avail name x y z ∧ x = major ∧ y = minor ∧ patch ≤ z)
      cases hp : parse_semver iver with
      | none =>
        constructor
        · intro h
          exact absurd h (by simp)
        · rintro ⟨name, M, N, P, hsf, -⟩
          obtain ⟨ver, hrs, hps⟩ := (semverForm_iff imp name M N P).mp hsf
          rw [hr] at hrs
          have hq := Option.some.inj hrs
          have hver : iver = ver := congrArg Prod.snd hq
          rw [← hver, hp] at hps
          exact Option.noConfusion hps
      | some triple =>
        obtain ⟨M, N, P⟩ := triple
        show (runtime_interfaces.any fun available =>
            match rsplit_once available '@' with
            | some (available_name, available_version) =>
              iname == available_name &&
                match parse_semver available_version with
                | some available_semver =>
                  available_semver.1 == M && available_semver.2.1 == N &&
                    decide (P ≤ available_semver.2.2)
                | none => false
            | none => false) = true ↔
            (∃ name major minor patch, SemverForm imp name major minor patch ∧
              ∃ avail ∈ runtime_interfaces, ∃ x y z,
                SemverForm avail name x y z ∧ x = major ∧ y = minor ∧ patch ≤ z)
        rw [List.any_eq_true]
        constructor
        · rintro ⟨avail, hmem, hpred⟩
          cases hra : rsplit_once avail '@' with
          | none =>
            rw [hra] at hpred
            exact absurd hpred (by simp)
          | some q =>
            obtain ⟨an, av⟩ := q
            rw [hra] at hpred
            have hpred2 : (iname == an &&
                match parse_semver av with
                | some available_semver =>
                  available_semver.1 == M && available_semver.2.1 == N &&
                    decide (P ≤ available_semver.2.2)
                | none => false) = true := hpred
            cases hpa : parse_semver av with
            | none =>
              rw [hpa] at hpred2
              simp at hpred2
            | some t2 =>
              obtain ⟨x, y, z⟩ := t2
              rw [hpa] at hpred2
              simp only [Bool.and_eq_true, beq_iff_eq, decide_eq_true_eq] at hpred2
              obtain ⟨hname, ⟨hx, hy⟩, hz⟩ := hpred2
              refine ⟨iname, M, N, P,
                (semverForm_iff imp iname M N P).mpr ⟨iver, hr, hp⟩,
                avail, hmem, x, y, z, ?_, hx, hy, hz⟩
              exact (semverForm_iff avail iname x y z).mpr
                ⟨av, by rw [hra, hname], hpa⟩
        · rintro ⟨name, M', N', P', hsf, avail, hmem, x, y, z, hsfa, hx, hy, hz⟩
          obtain ⟨ver, hrs, hps⟩ := (semverForm_iff imp name M' N' P').mp hsf
          rw [hr] at hrs
          have hq := Option.some.inj hrs
          have hname : iname = name := congrArg Prod.fst hq
          have hver : iver = ver := congrArg Prod.snd hq
          rw [← hver, hp] at hps
          have htr := Option.some.inj hps
          have hM : M = M' := congrArg (fun t => t.1) htr
          have hN : N = N' := congrArg (fun t => t.2.1) htr
          have hP : P = P' := congrArg (fun t => t.2.2) htr
          refine ⟨avail, hmem, ?_⟩
          obtain ⟨aver, hras, hpas⟩ :=
            (semverForm_iff avail name x y z).mp hsfa
          rw [hras]
          show (iname == name &&
            match parse_semver aver with
            | some available_semver =>
              available_semver.1 == M && available_semver.2.1 == N &&
                decide (P ≤ available_semver.2.2)
            | none => false) = true
          rw [hpas]
          show (iname == name && (x == M && y == N && decide (P ≤ z))) = true
          simp only [Bool.and_eq_true, beq_iff_eq, decide_eq_true_eq]
          exact ⟨hname, ⟨hx ▸ hM.symm, hy ▸ hN.symm⟩, hP ▸ hz⟩

/-! ## C4 — integer conversion in `json_to_val` -/

/-- C4: the claim states that a JSON number outside the target integer type's
range is rejected.  The code truncates instead: at expected type `u8`, the
out-of-range number `256` converts successfully to the different value
`u8 0` (Rust `n.as_u64()? as u8`); likewise `300` at `s8` yields `s8 44`.
This theorem evaluates the embedded conversion at those failing inputs;
`u64`-width checking (a negative number at `u8`) does error, showing the
range check exists only at 64-bit width. -/
theorem json_to_val_truncates_out_of_range :
    json_to_val (.num 256) .u8 = .ok (.u8 0) ∧
    json_to_val (.num 300) .s8 = .ok (.s8 44) ∧
    ¬(0 ≤ (256 : Int) ∧ (256 : Int) ≤ 255) ∧
    Val.u8 0 ≠ Val.u8 256 ∧
    json_to_val (.num (-1)) .u8 = .error "Invalid number for u8" := by
  refine ⟨?_, ?_, by decide, ?_, ?_⟩
  · simp [json_to_val, jsonAsU64, truncU]
  · simp [json_to_val, jsonAsI64, truncS]
  · intro h
    simp at h
  · simp [json_to_val, jsonAsU64]

/-! ## C7 — undefined expectations in the loader -/

theorem exceptBind_ok {ε α β : Type} (a : α) (f : α → Except ε β) :
    (Except.ok a >>= f) = f a := rfl

theorem exceptBind_error {ε α β : Type} (e : ε) (f : α → Except ε β) :
    ((Except.error e : Except ε α) >>= f) = .error e := rfl

theorem checkExpectsOf_ok_of_exposed (allNames : List String)
    (d : ComponentDefinition) (hexp : d.exposed = true) :
    ∀ es, checkExpectsOf allNames d es = .ok () := by
  intro es
  induction es with
  | nil => rfl
  | cons e rest ih =>
    rw [checkExpectsOf]
    by_cases hce : allNames.contains e = true
    · rw [if_pos hce]
      exact ih
    · rw [if_neg hce, if_pos hexp]
      exact ih

theorem checkExpectsOf_errs_iff (allNames : List String)
    (d : ComponentDefinition) :
    ∀ es, (∃ err, checkExpectsOf allNames d es = .error err) ↔
      (¬d.exposed = true ∧ ∃ e ∈ es, e ∉ allNames) := by
  intro es
  induction es with
  | nil =>
    constructor
    · rintro ⟨err, herr⟩
      exact Except.noConfusion herr
    · rintro ⟨-, e, hmem, -⟩
      exact absurd hmem (List.not_mem_nil e)
  | cons e rest ih =>
    rw [checkExpectsOf]
    by_cases hce : allNames.contains e = true
    · rw [if_pos hce]
      rw [ih]
      have hmem : e ∈ allNames := List.elem_iff.mp hce
      constructor
      · rintro ⟨hne, e', hmem', hnot⟩
        exact ⟨hne, e', List.mem_cons_of_mem e hmem', hnot⟩
      · rintro ⟨hne, e', hmem', hnot⟩
        rcases List.mem_cons.mp hmem' with heq | hmem''
        · exact absurd (heq ▸ hmem) hnot
        · exact ⟨hne, e', hmem'', hnot⟩
    · rw [if_neg hce]
      have hnotmem : e ∉ allNames := fun hm => hce (List.elem_iff.mpr hm)
      by_cases hexp : d.exposed = true
      · rw [if_pos hexp]
        rw [ih]
        constructor
        · rintro ⟨hne, -⟩
          exact absurd hexp hne
        · rintro ⟨hne, -⟩
          exact absurd hexp hne
      · rw [if_neg hexp]
        constructor
        · rintro -
          exact ⟨hexp, e, List.mem_cons_self e rest, hnotmem⟩
        · rintro -
          exact ⟨_, rfl⟩

theorem checkExpects_errs_iff (allNames : List String) :
    ∀ cds : List ComponentDefinition,
      (∃ err, checkExpects allNames cds = .error err) ↔
      (∃ c ∈ cds, ¬c.exposed = true ∧ ∃ e ∈ c.expects, e ∉ allNames) := by
  intro cds
  induction cds with
  | nil =>
    constructor
    · rintro ⟨err, herr⟩
      exact Except.noConfusion herr
    · rintro ⟨c, hmem, -⟩
      exact absurd hmem (List.not_mem_nil c)
  | cons d rest ih =>
    rw [checkExpects]
    cases hh : checkExpectsOf allNames d d.expects with
    | error err =>
      have hbad := (checkExpectsOf_errs_iff allNames d d.expects).mp ⟨err, hh⟩
      constructor
      · rintro -
        exact ⟨d, List.mem_cons_self d rest, hbad⟩
      · rintro -
        exact ⟨err, rfl⟩
    | ok u =>
      obtain ⟨⟩ := u
      have hgood := (checkExpectsOf_errs_iff allNames d d.expects).not.mp
        (by rw [hh]; rintro ⟨err, herr⟩; exact Except.noConfusion herr)
      rw [exceptBind_ok]
      rw [ih]
      constructor
      · rintro ⟨c, hmem, hc⟩
        exact ⟨c, List.mem_cons_of_mem d hmem, hc⟩
      · rintro ⟨c, hmem, hc⟩
        rcases List.mem_cons.mp hmem with heq | hmem'
        · exact absurd (heq ▸ hc) hgood
        · exact ⟨c, hmem', hc⟩

theorem checkDuplicateNames_ok (names : List String) :
    ∀ seen, names.Nodup → (∀ n ∈ names, n ∉ seen) →
      checkDuplicateNames seen names = .ok (seen ++ names) := by
  induction names with
  | nil =>
    intro seen _ _
    simp [checkDuplicateNames]
  | cons n rest ih =>
    intro seen hnd hdisj
    rw [checkDuplicateNames]
    have hns : seen.contains n ≠ true :=
      fun hc => hdisj n (List.mem_cons_self n rest) (List.elem_iff.mp hc)
    rw [if_neg hns]
    have hnd' := (List.nodup_cons.mp hnd).2
    have hnn := (List.nodup_cons.mp hnd).1
    rw [ih (seen ++ [n]) hnd' ?_]
    · simp
    · intro m hm hmem
      rcases List.mem_append.mp hmem with h1 | h2
      · exact hdisj m (List.mem_cons_of_mem n hm) h1
      · have : m = n := by simpa using h2
        exact hnn (this ▸ hm)

/-- C7: with validly scoped, duplicate-free definitions, `build_definitions`
fails if and only if some component that is NOT exposed expects a name that
no definition carries; an exposed component's undefined expectation is
tolerated. -/
theorem build_definitions_expectation_policy
    (rfds : List RuntimeFeatureDefinition) (cds : List ComponentDefinition)
    (hfs : validateFeatureScopes rfds = .ok ())
    (hcs : validateComponentScopes cds = .ok ())
    (hnodup : (rfds.map (·.name) ++ cds.map (·.name)).Nodup) :
    exceptIsOk (build_definitions rfds cds) = false ↔
      ∃ c ∈ cds, ¬c.exposed = true ∧
        ∃ e ∈ c.expects, e ∉ rfds.map (·.name) ++ cds.map (·.name) := by
  have hnodup1 : (rfds.map (·.name)).Nodup := (List.nodup_append.mp hnodup).1
  have hnodup2 : (cds.map (·.name)).Nodup := (List.nodup_append.mp hnodup).2.1
  have hdisj := (List.nodup_append.mp hnodup).2.2
  have hd1 : checkDuplicateNames [] (rfds.map (·.name)) = .ok (rfds.map (·.name)) := by
    have := checkDuplicateNames_ok (rfds.map (·.name)) [] hnodup1 (by simp)
    simpa using this
  have hd2 : checkDuplicateNames (rfds.map (·.name)) (cds.map (·.name)) =
      .ok (rfds.map (·.name) ++ cds.map (·.name)) := by
    refine checkDuplicateNames_ok (cds.map (·.name)) (rfds.map (·.name)) hnodup2 ?_
    intro n hn hmem
    exact hdisj hmem hn
  unfold build_definitions
  rw [hfs, hcs]
  simp only [exceptBind_ok]
  rw [hd1]
  simp only [exceptBind_ok]
  rw [hd2]
  simp only [exceptBind_ok]
  rw [← checkExpects_errs_iff (rfds.map (·.name) ++ cds.map (·.name)) cds]
  cases hce : checkExpects (rfds.map (·.name) ++ cds.map (·.name)) cds with
  | error err =>
    simp only [exceptBind_error, exceptIsOk]
    constructor
    · rintro -
      exact ⟨err, rfl⟩
    · rintro -
      trivial
  | ok u =>
    obtain ⟨⟩ := u
    simp only [exceptBind_ok, exceptIsOk]
    constructor
    · rintro h
      exact Bool.noConfusion h
    · rintro ⟨err, herr⟩
      exact Except.noConfusion herr

/-- Witness for C7: an unexposed component expecting the undefined name
`ghost` makes the loader fail, while the same expectation on an exposed
component is tolerated. -/
theorem build_definitions_expectation_policy_witness :
    exceptIsOk (build_definitions [] witC7badComps) = false ∧
    exceptIsOk (build_definitions [] witC7okComps) = true := by
  constructor
  · rw [build_definitions_expectation_policy [] witC7badComps rfl rfl (by decide)]
    refine ⟨{ mkComp "u" with expects := ["ghost"] }, ?_, ?_, "ghost", ?_, ?_⟩
    · exact List.mem_cons_self _ _
    · decide
    · exact List.mem_cons_self _ _
    · decide
  · have h := build_definitions_expectation_policy [] witC7okComps rfl rfl (by decide)
    have hno : ¬∃ c ∈ witC7okComps, ¬c.exposed = true ∧
        ∃ e ∈ c.expects, e ∉ ([] : List RuntimeFeatureDefinition).map (·.name) ++
          witC7okComps.map (·.name) := by
      rintro ⟨c, hmem, hne, -⟩
      have : c = { mkComp "h" with exposed := true, expects := ["ghost"] } := by
        simpa [witC7okComps] using hmem
      rw [this] at hne
      exact hne rfl
    have hf : exceptIsOk (build_definitions [] witC7okComps) ≠ false :=
      fun hx => hno (h.mp hx)
    cases hval : exceptIsOk (build_definitions [] witC7okComps) with
    | true => rfl
    | false => exact absurd hval hf

/-! ## C8 — package/namespace dependency gating -/

/-- C8: when the enabling component's scope is `package` (resp. `namespace`),
`get_enabled_component_dependency` returns the dependency's spec exactly when
both the requester's parsed metadata field and the enabling component's field
are present and equal — an absent field on either side disables the
dependency — and a disabled component dependency makes the
dependency-composition loop of `process_component` fail with the
dependency-disabled error. -/
theorem get_enabled_component_dependency_metadata (reg : ComponentRegistry)
    (req : ComponentDefinition) (meta : ComponentMetadata) (depName : String)
    (ec : EnablingComponent)
    (hlook : lookupByKey reg.enabling_components depName = some ec) :
    (ec.enables = "package" →
      get_enabled_component_dependency reg req meta depName =
        (match meta.package, ec.component.package with
         | some req_pkg, some enable_pkg =>
           if req_pkg = enable_pkg then some ec.component else none
         | _, _ => none)) ∧
    (ec.enables = "namespace" →
      get_enabled_component_dependency reg req meta depName =
        (match meta.nspace, ec.component.nspace with
         | some req_ns, some enable_ns =>
           if req_ns = enable_ns then some ec.component else none
         | _, _ => none)) ∧
    (∀ (g : ComponentGraph) (creg : ComponentRegistry)
       (rfr : List (String × RuntimeFeature)) (env : Env)
       (definition ddef : ComponentDefinition) (meta2 : ComponentMetadata)
       (depIdx : Nat) (rest : List Nat) (bytes : Bytes)
       (imports features : List String),
      g.nodes[depIdx]? = some (Node.component ddef) →
      get_enabled_component_dependency creg definition meta2 ddef.name = none →
      processDeps g creg rfr env definition meta2 (depIdx :: rest) bytes imports features =
        .error (.dependencyDisabled definition.name ddef.name)) := by
  refine ⟨?_, ?_, ?_⟩
  · intro hpkg
    unfold get_enabled_component_dependency
    rw [hlook]
    show (match ec.enables with
      | "none" => none
      | "any" => some ec.component
      | "exposed" => if req.exposed then some ec.component else none
      | "unexposed" => if !req.exposed then some ec.component else none
      | "package" =>
        match meta.package, ec.component.package with
        | some req_pkg, some enable_pkg =>
          if req_pkg = enable_pkg then some ec.component else none
        | _, _ => none
      | "namespace" =>
        match meta.nspace, ec.component.nspace with
        | some req_ns, some enable_ns =>
          if req_ns = enable_ns then some ec.component else none
        | _, _ => none
      | _ => none) = _
    rw [hpkg]
    rfl
  · intro hns
    unfold get_enabled_component_dependency
    rw [hlook]
    show (match ec.enables with
      | "none" => none
      | "any" => some ec.component
      | "exposed" => if req.exposed then some ec.component else none
      | "unexposed" => if !req.exposed then some ec.component else none
      | "package" =>
        match meta.package, ec.component.package with
        | some req_pkg, some enable_pkg =>
          if req_pkg = enable_pkg then some ec.component else none
        | _, _ => none
      | "namespace" =>
        match meta.nspace, ec.component.nspace with
        | some req_ns, some enable_ns =>
          if req_ns = enable_ns then some ec.component else none
        | _, _ => none
      | _ => none) = _
    rw [hns]
    rfl
  · intro g creg rfr env definition ddef meta2 depIdx rest bytes imports features
      hnode hdis
    rw [processDeps, hnode]
    show (match get_enabled_component_dependency creg definition meta2 ddef.name with
      | some component_spec =>
        match env.composeComponents bytes component_spec.bytes with
        | none => Except.error (RtError.composeFailed definition.name ddef.name)
        | some bytes2 =>
          processDeps g creg rfr env definition meta2 rest bytes2
            (imports.filter (fun i => !(component_spec.exports.contains i)))
            (component_spec.runtime_features.foldl
              (fun acc f => if acc.contains f then acc else acc ++ [f]) features)
      | none => Except.error (RtError.dependencyDisabled definition.name ddef.name)) = _
    rw [hdis]

/-- Witness for C8: a `package`-scoped provider resolves for a requester with
the same parsed package and is disabled when the requester's package is
absent; a disabled dependency errors the composition loop. -/
theorem get_enabled_component_dependency_metadata_witness :
    get_enabled_component_dependency witC8reg (mkComp "x")
      ⟨some "acme", some "acme:core"⟩ "prov" = some witC8enabling.component ∧
    get_enabled_component_dependency witC8reg (mkComp "x")
      ⟨none, none⟩ "prov" = none ∧
    processDeps cexC2graph ⟨[("d", cexC2specD)], []⟩ [] trivialEnv
      { mkComp "a" with expects := ["d"], exposed := true } ⟨none, none⟩
      [0] 0 [] [] = .error (.dependencyDisabled "a" "d") := by
  refine ⟨?_, ?_, ?_⟩
  · rw [(get_enabled_component_dependency_metadata witC8reg (mkComp "x")
      ⟨some "acme", some "acme:core"⟩ "prov" witC8enabling rfl).1 rfl]
    rfl
  · rw [(get_enabled_component_dependency_metadata witC8reg (mkComp "x")
      ⟨none, none⟩ "prov" witC8enabling rfl).1 rfl]
  · exact (get_enabled_component_dependency_metadata witC8reg (mkComp "x")
      ⟨none, none⟩ "prov" witC8enabling rfl).2.2 cexC2graph
      ⟨[("d", cexC2specD)], []⟩ [] trivialEnv
      { mkComp "a" with expects := ["d"], exposed := true } (mkComp "d")
      ⟨none, none⟩ 0 [] 0 [] [] rfl rfl

/-! ## C2 — the skip policy of registry construction -/

/-- C2 (amended): during the component walk of `build_registries`, an error
while processing a component is fatal if and only if the component is NOT
exposed; a failing exposed component is skipped — whatever the kind of its
error — and the walk continues unchanged; consequently, when every component
node is exposed the walk always succeeds (building never fails because an
exposed component is unresolvable). -/
theorem build_registries_skip_policy (g : ComponentGraph)
    (rfr : List (String × RuntimeFeature)) (env : Env) :
    (∀ (idx : Nat) (rest : List Nat) built exposedAcc enabling
       (definition : ComponentDefinition) (e : RtError),
      g.nodes[idx]? = some (Node.component definition) →
      definition.exposed = false →
      process_component idx g ⟨built, enabling⟩ rfr env = .error e →
      buildLoop g rfr env (idx :: rest) built exposedAcc enabling = .error e) ∧
    (∀ (idx : Nat) (rest : List Nat) built exposedAcc enabling
       (definition : ComponentDefinition) (e : RtError),
      g.nodes[idx]? = some (Node.component definition) →
      definition.exposed = true →
      process_component idx g ⟨built, enabling⟩ rfr env = .error e →
      buildLoop g rfr env (idx :: rest) built exposedAcc enabling =
        buildLoop g rfr env rest built exposedAcc enabling) ∧
    (∀ (indices : List Nat) built exposedAcc enabling,
      (∀ idx ∈ indices, ∀ d : ComponentDefinition,
        g.nodes[idx]? = some (Node.component d) → d.exposed = true) →
      exceptIsOk (buildLoop g rfr env indices built exposedAcc enabling) = true) := by
  refine ⟨?_, ?_, ?_⟩
  · intro idx rest built exposedAcc enabling definition e hnode hexp hproc
    rw [buildLoop, hnode]
    show (match process_component idx g ⟨built, enabling⟩ rfr env with
      | .ok component_spec =>
        buildLoop g rfr env rest
          (insertByKey built definition.name component_spec)
          (if definition.exposed then
            insertByKey exposedAcc definition.name component_spec
          else exposedAcc)
          (if definition.enables ≠ "none" then
            insertByKey enabling definition.name
              ⟨component_spec, definition.exposed, definition.enables⟩
          else enabling)
      | .error e =>
        if definition.exposed then buildLoop g rfr env rest built exposedAcc enabling
        else .error e) = _
    rw [hproc]
    show (if definition.exposed then buildLoop g rfr env rest built exposedAcc enabling
      else .error e) = _
    rw [hexp]
    rfl
  · intro idx rest built exposedAcc enabling definition e hnode hexp hproc
    rw [buildLoop, hnode]
    show (match process_component idx g ⟨built, enabling⟩ rfr env with
      | .ok component_spec =>
        buildLoop g rfr env rest
          (insertByKey built definition.name component_spec)
          (if definition.exposed then
            insertByKey exposedAcc definition.name component_spec
          else exposedAcc)
          (if definition.enables ≠ "none" then
            insertByKey enabling definition.name
              ⟨component_spec, definition.exposed, definition.enables⟩
          else enabling)
      | .error e =>
        if definition.exposed then buildLoop g rfr env rest built exposedAcc enabling
        else .error e) = _
    rw [hproc]
    show (if definition.exposed then buildLoop g rfr env rest built exposedAcc enabling
      else .error e) = _
    rw [hexp]
    rfl
  · intro indices
    induction indices with
    | nil =>
      intro built exposedAcc enabling _
      rfl
    | cons idx rest ih =>
      intro built exposedAcc enabling hall
      have hall' : ∀ i ∈ rest, ∀ d : ComponentDefinition,
          g.nodes[i]? = some (Node.component d) → d.exposed = true :=
        fun i hi => hall i (List.mem_cons_of_mem idx hi)
      rw [buildLoop]
      cases hnode : g.nodes[idx]? with
      | none => exact ih built exposedAcc enabling hall'
      | some node =>
        cases node with
        | runtimeFeature f => exact ih built exposedAcc enabling hall'
        | component d =>
          have hexp : d.exposed = true := hall idx (List.mem_cons_self idx rest) d hnode
          cases hproc : process_component idx g ⟨built, enabling⟩ rfr env with
          | ok component_spec => exact ih _ _ _ hall'
          | error e =>
            show exceptIsOk (if d.exposed then
              buildLoop g rfr env rest built exposedAcc enabling else .error e) = true
            rw [hexp]
            exact ih built exposedAcc enabling hall'

/-- Counterexample for C2 as stated: processing the exposed component `a`
fails with a dependency-disabled error — not an unsatisfied-imports error and
not a missing optional expectation — yet the whole build succeeds (`a` is
skipped), where the claim demands the build return the error. -/
theorem build_registries_error_kind_counterexample :
    process_component 1 cexC2graph ⟨[("d", cexC2specD)], []⟩ [] trivialEnv =
      .error (.dependencyDisabled "a" "d") ∧
    build_registries cexC2graph [] trivialEnv =
      .ok ([], (⟨[], []⟩ : ComponentRegistry)) := by
  constructor
  · rfl
  · rfl

/-- Witness for C2 (amended): in a configuration where both exposed
components fail to process (one with unreadable bytes, one with a disabled
dependency), the walk still succeeds. -/
theorem build_registries_skip_policy_witness :
    exceptIsOk (buildLoop witC2graph [] witC2env [0, 1] [] [] []) = true := by
  refine (build_registries_skip_policy witC2graph [] witC2env).2.2 [0, 1] [] [] [] ?_
  intro idx hmem d hnode
  rcases List.mem_cons.mp hmem with rfl | h2
  · have h0 : witC2graph.nodes[0]? =
        some (Node.component { mkComp "b" with exposed := true }) := rfl
    rw [h0] at hnode
    have := Option.some.inj hnode
    have hd : { mkComp "b" with exposed := true } = d := by
      injection this
    rw [← hd]
  · rcases List.mem_cons.mp h2 with rfl | h3
    · have h1 : witC2graph.nodes[1]? =
          some (Node.component { mkComp "a" with expects := ["b"], exposed := true }) := rfl
      rw [h1] at hnode
      have := Option.some.inj hnode
      have hd : { mkComp "a" with expects := ["b"], exposed := true } = d := by
        injection this
      rw [← hd]
    · exact absurd h3 (List.not_mem_nil idx)

/-! ## C9 — `val_to_json` collapses `option` nesting -/

/-- C9: outbound marshalling maps `some v` to the conversion of `v` and
`none` to `null` with no wrapper, so every `some^k (none)` nesting and `none`
itself produce the identical JSON `null`. -/
theorem val_to_json_option_collapse :
    (∀ v : Val, val_to_json (.option (some v)) = val_to_json v) ∧
    val_to_json (.option none) = .null ∧
    (∀ k : Nat, val_to_json (nestedSome k) = .null) := by
  refine ⟨fun v => rfl, rfl, fun k => ?_⟩
  induction k with
  | zero => rfl
  | succ n ih => rw [nestedSome, val_to_json]; exact ih

/-! ## C10 — the typed extension-state bag -/

/-- C10: get/set laws of the per-invocation extension bag, keyed by type
identity: a set is observed by a get at the same type; a later set at the
same type overwrites; a set at one type leaves every other type's slot
unchanged; and a type never stored reads as `none`. -/
theorem componentState_extension_laws {TyOf : Nat → Type}
    (st : ComponentState TyOf) (T U : Nat) (v w : TyOf T) (hTU : U ≠ T) :
    ((st.set_extension T v).get_extension T = some v) ∧
    (((st.set_extension T v).set_extension T w).get_extension T = some w) ∧
    ((st.set_extension T v).get_extension U = st.get_extension U) ∧
    ((∀ e ∈ st.extensions, e.1 ≠ T) → st.get_extension T = none) := by
  refine ⟨?_, ?_, ?_, ?_⟩
  · unfold ComponentState.get_extension ComponentState.set_extension
    rw [lookupByKey_insert_self]
    exact dif_pos rfl
  · unfold ComponentState.get_extension ComponentState.set_extension
    rw [lookupByKey_insert_self]
    exact dif_pos rfl
  · unfold ComponentState.get_extension ComponentState.set_extension
    rw [lookupByKey_insert_ne _ _ _ _ hTU]
  · intro h
    unfold ComponentState.get_extension
    rw [lookupByKey_eq_none_of_keys _ _ h]

/-- Witness for C10 at a concrete bag: type ids `0` and `1` over the constant
family of natural-number states. -/
theorem componentState_extension_laws_witness :
    ((@ComponentState.set_extension (fun _ => Nat) ⟨[]⟩ 0 5).get_extension 0
        = some 5) ∧
    (((@ComponentState.set_extension (fun _ => Nat) ⟨[]⟩ 0 5).set_extension 0 7).get_extension 0
        = some 7) ∧
    ((@ComponentState.set_extension (fun _ => Nat) ⟨[]⟩ 0 5).get_extension 1
        = @ComponentState.get_extension (fun _ => Nat) ⟨[]⟩ 1) ∧
    ((∀ e ∈ (@ComponentState.mk (fun _ => Nat) []).extensions, e.1 ≠ 0) →
      @ComponentState.get_extension (fun _ => Nat) ⟨[]⟩ 0 = none) :=
  componentState_extension_laws ⟨[]⟩ 0 1 5 7 (by decide)

/-! ## C5 — the JSON round-trip law -/

mutual

theorem roundtrip_val : ∀ (t : Ty) (j : Json), Matches j t = true →
    ∃ v, json_to_val j t = .ok v ∧ val_to_json v = canonicalize j t
  | .bool, j, h => by
    cases j with
    | bool b =>
      refine ⟨.bool b, ?_, ?_⟩
      · simp [json_to_val]
      · simp [val_to_json, canonicalize]
    | null => simp [Matches] at h
    | num n => simp [Matches] at h
    | str s => simp [Matches] at h
    | arr items => simp [Matches] at h
    | obj o => simp [Matches] at h
    | fnum f => simp [Matches] at h
  | .string, j, h => by
    cases j with
    | str s =>
      refine ⟨.str s, ?_, ?_⟩
      · simp [json_to_val]
      · simp [val_to_json, canonicalize]
    | null => simp [Matches] at h
    | num n => simp [Matches] at h
    | bool b => simp [Matches] at h
    | arr items => simp [Matches] at h
    | obj o => simp [Matches] at h
    | fnum f => simp [Matches] at h
  | .char, j, h => by
    cases j with
    | str s =>
      simp only [Matches, beq_iff_eq] at h
      obtain ⟨c, hc⟩ := List.length_eq_one.mp h
      refine ⟨.char c, ?_, ?_⟩
      · simp [json_to_val, hc]
      · have hcs : c.toString = s := by
          apply String.ext
          rw [hc]
          rfl
        simp [val_to_json, canonicalize, hcs]
    | null => simp [Matches] at h
    | num n => simp [Matches] at h
    | bool b => simp [Matches] at h
    | arr items => simp [Matches] at h
    | obj o => simp [Matches] at h
    | fnum f => simp [Matches] at h
  | .u8, j, h => by
    cases j with
    | num n =>
      simp only [Matches, decide_eq_true_eq] at h
      have h64 : jsonAsU64 n = some n.toNat := by
        unfold jsonAsU64
        rw [if_pos ⟨h.1, by omega⟩]
      have htr : truncU 8 n.toNat = n.toNat := by
        unfold truncU
        simp
        omega
      refine ⟨.u8 n.toNat, ?_, ?_⟩
      · simp [json_to_val, h64, htr]
      · simp [val_to_json, canonicalize]
        omega
    | null => simp [Matches] at h
    | bool b => simp [Matches] at h
    | str s => simp [Matches] at h
    | arr items => simp [Matches] at h
    | obj o => simp [Matches] at h
    | fnum f => simp [Matches] at h
  | .u16, j, h => by
    cases j with
    | num n =>
      simp only [Matches, decide_eq_true_eq] at h
      have h64 : jsonAsU64 n = some n.toNat := by
        unfold jsonAsU64
        rw [if_pos ⟨h.1, by omega⟩]
      have htr : truncU 16 n.toNat = n.toNat := by
        unfold truncU
        simp
        omega
      refine ⟨.u16 n.toNat, ?_, ?_⟩
      · simp [json_to_val, h64, htr]
      · simp [val_to_json, canonicalize]
        omega
    | null => simp [Matches] at h
    | bool b => simp [Matches] at h
    | str s => simp [Matches] at h
    | arr items => simp [Matches] at h
    | obj o => simp [Matches] at h
    | fnum f => simp [Matches] at h
  | .u32, j, h => by
    cases j with
    | num n =>
      simp only [Matches, decide_eq_true_eq] at h
      have h64 : jsonAsU64 n = some n.toNat := by
        unfold jsonAsU64
        rw [if_pos ⟨h.1, by omega⟩]
      have htr : truncU 32 n.toNat = n.toNat := by
        unfold truncU
        simp
        omega
      refine ⟨.u32 n.toNat, ?_, ?_⟩
      · simp [json_to_val, h64, htr]
      · simp [val_to_json, canonicalize]
        omega
    | null => simp [Matches] at h
    | bool b => simp [Matches] at h
    | str s => simp [Matches] at h
    | arr items => simp [Matches] at h
    | obj o => simp [Matches] at h
    | fnum f => simp [Matches] at h
  | .u64, j, h => by
    cases j with
    | num n =>
      simp only [Matches, decide_eq_true_eq] at h
      have h64 : jsonAsU64 n = some n.toNat := by
        unfold jsonAsU64
        rw [if_pos ⟨h.1, by omega⟩]
      refine ⟨.u64 n.toNat, ?_, ?_⟩
      · simp [json_to_val, h64]
      · simp [val_to_json, canonicalize]
        omega
    | null => simp [Matches] at h
    | bool b => simp [Matches] at h
    | str s => simp [Matches] at h
    | arr items => simp [Matches] at h
    | obj o => simp [Matches] at h
    | fnum f => simp [Matches] at h
  | .s8, j, h => by
    cases j with
    | num n =>
      simp only [Matches, decide_eq_true_eq] at h
      have h64 : jsonAsI64 n = some n := by
        unfold jsonAsI64
        rw [if_pos ⟨by omega, by omega⟩]
      have htr : truncS 8 n = n := by
        unfold truncS
        simp
        omega
      refine ⟨.s8 n, ?_, ?_⟩
      · simp [json_to_val, h64, htr]
      · simp [val_to_json, canonicalize]
    | null => simp [Matches] at h
    | bool b => simp [Matches] at h
    | str s => simp [Matches] at h
    | arr items => simp [Matches] at h
    | obj o => simp [Matches] at h
    | fnum f => simp [Matches] at h
  | .s16, j, h => by
    cases j with
    | num n =>
      simp only [Matches, decide_eq_true_eq] at h
      have h64 : jsonAsI64 n = some n := by
        unfold jsonAsI64
        rw [if_pos ⟨by omega, by omega⟩]
      have htr : truncS 16 n = n := by
        unfold truncS
        simp
        omega
      refine ⟨.s16 n, ?_, ?_⟩
      · simp [json_to_val, h64, htr]
      · simp [val_to_json, canonicalize]
    | null => simp [Matches] at h
    | bool b => simp [Matches] at h
    | str s => simp [Matches] at h
    | arr items => simp [Matches] at h
    | obj o => simp [Matches] at h
    | fnum f => simp [Matches] at h
  | .s32, j, h => by
    cases j with
    | num n =>
      simp only [Matches, decide_eq_true_eq] at h
      have h64 : jsonAsI64 n = some n := by
        unfold jsonAsI64
        rw [if_pos ⟨by omega, by omega⟩]
      have htr : truncS 32 n = n := by
        unfold truncS
        simp
        omega
      refine ⟨.s32 n, ?_, ?_⟩
      · simp [json_to_val, h64, htr]
      · simp [val_to_json, canonicalize]
    | null => simp [Matches] at h
    | bool b => simp [Matches] at h
    | str s => simp [Matches] at h
    | arr items => simp [Matches] at h
    | obj o => simp [Matches] at h
    | fnum f => simp [Matches] at h
  | .s64, j, h => by
    cases j with
    | num n =>
      simp only [Matches, decide_eq_true_eq] at h
      have h64 : jsonAsI64 n = some n := by
        unfold jsonAsI64
        rw [if_pos ⟨by omega, by omega⟩]
      refine ⟨.s64 n, ?_, ?_⟩
      · simp [json_to_val, h64]
      · simp [val_to_json, canonicalize]
    | null => simp [Matches] at h
    | bool b => simp [Matches] at h
    | str s => simp [Matches] at h
    | arr items => simp [Matches] at h
    | obj o => simp [Matches] at h
    | fnum f => simp [Matches] at h
  | .list et, j, h => by
    cases j with
    | arr items =>
      simp only [Matches] at h
      obtain ⟨vs, hv, hc⟩ := roundtrip_list et items h
      refine ⟨.list vs, ?_, ?_⟩
      · simp [json_to_val, hv, exceptBind_ok]
      · simp [val_to_json, canonicalize, hc]
    | null => simp [Matches] at h
    | num n => simp [Matches] at h
    | bool b => simp [Matches] at h
    | str s => simp [Matches] at h
    | obj o => simp [Matches] at h
    | fnum f => simp [Matches] at h
  | .tuple ts, j, h => by
    cases j with
    | arr items =>
      simp only [Matches, Bool.and_eq_true, beq_iff_eq] at h
      obtain ⟨vs, hv, hc⟩ := roundtrip_tuple ts items h.2
      refine ⟨.tuple vs, ?_, ?_⟩
      · simp [json_to_val, h.1, hv, exceptBind_ok]
      · simp [val_to_json, canonicalize, hc]
    | null => simp [Matches] at h
    | num n => simp [Matches] at h
    | bool b => simp [Matches] at h
    | str s => simp [Matches] at h
    | obj o => simp [Matches] at h
    | fnum f => simp [Matches] at h
  | .record fs, j, h => by
    cases j with
    | obj o =>
      simp only [Matches, Bool.and_eq_true] at h
      obtain ⟨⟨hnd, hmr⟩, hall⟩ := h
      obtain ⟨flds, hv, hc⟩ := roundtrip_record fs o hmr
      have hfind : o.find? (fun kv => !(fs.any (fun f => f.1 == kv.1))) = none := by
        rw [List.find?_eq_none]
        intro kv hkv
        have := List.all_eq_true.mp hall kv hkv
        simp [this]
      refine ⟨.record flds, ?_, ?_⟩
      · simp [json_to_val, hv, hfind, exceptBind_ok]
      · simp [val_to_json, canonicalize, hc]
    | null => simp [Matches] at h
    | num n => simp [Matches] at h
    | bool b => simp [Matches] at h
    | str s => simp [Matches] at h
    | arr items => simp [Matches] at h
    | fnum f => simp [Matches] at h
  | .f32, j, h => by
    cases j <;> simp [Matches] at h
  | .f64, j, h => by
    cases j <;> simp [Matches] at h
  | .option et, j, h => by
    cases j with
    | null =>
      refine ⟨.option none, ?_, ?_⟩
      · simp [json_to_val]
      · simp [val_to_json, canonicalize]
    | bool b =>
      simp only [Matches] at h
      obtain ⟨v, hv, hc⟩ := roundtrip_val et (.bool b) h
      refine ⟨.option (some v), ?_, ?_⟩
      · simp [json_to_val, hv, exceptBind_ok]
      · simp [val_to_json, canonicalize, hc]
    | num n =>
      simp only [Matches] at h
      obtain ⟨v, hv, hc⟩ := roundtrip_val et (.num n) h
      refine ⟨.option (some v), ?_, ?_⟩
      · simp [json_to_val, hv, exceptBind_ok]
      · simp [val_to_json, canonicalize, hc]
    | str s =>
      simp only [Matches] at h
      obtain ⟨v, hv, hc⟩ := roundtrip_val et (.str s) h
      refine ⟨.option (some v), ?_, ?_⟩
      · simp [json_to_val, hv, exceptBind_ok]
      · simp [val_to_json, canonicalize, hc]
    | arr items =>
      simp only [Matches] at h
      obtain ⟨v, hv, hc⟩ := roundtrip_val et (.arr items) h
      refine ⟨.option (some v), ?_, ?_⟩
      · simp [json_to_val, hv, exceptBind_ok]
      · simp [val_to_json, canonicalize, hc]
    | obj o =>
      simp only [Matches] at h
      obtain ⟨v, hv, hc⟩ := roundtrip_val et (.obj o) h
      refine ⟨.option (some v), ?_, ?_⟩
      · simp [json_to_val, hv, exceptBind_ok]
      · simp [val_to_json, canonicalize, hc]
    | fnum f =>
      simp only [Matches] at h
      obtain ⟨v, hv, hc⟩ := roundtrip_val et (.fnum f) h
      refine ⟨.option (some v), ?_, ?_⟩
      · simp [json_to_val, hv, exceptBind_ok]
      · simp [val_to_json, canonicalize, hc]
  termination_by t j h => (sizeOf t, sizeOf j)

theorem roundtrip_list : ∀ (t : Ty) (items : List Json), matchesList items t = true →
    ∃ vs, jsonListToVals items t = .ok vs ∧ valsToJson vs = canonList items t
  | t, [], h => by
    refine ⟨[], ?_, ?_⟩
    · simp [jsonListToVals]
    · simp [valsToJson, canonList]
  | t, j :: rest, h => by
    simp only [matchesList, Bool.and_eq_true] at h
    obtain ⟨v, hv, hc⟩ := roundtrip_val t j h.1
    obtain ⟨vs, hvs, hcs⟩ := roundtrip_list t rest h.2
    refine ⟨v :: vs, ?_, ?_⟩
    · simp [jsonListToVals, hv, hvs, exceptBind_ok]
    · simp [valsToJson, canonList, hc, hcs]
  termination_by t items h => (sizeOf t, sizeOf items)

theorem roundtrip_tuple : ∀ (ts : List Ty) (items : List Json),
    matchesTuple items ts = true →
    ∃ vs, jsonTupleToVals items ts = .ok vs ∧ valsToJson vs = canonTuple items ts
  | [], [], h => by
    refine ⟨[], ?_, ?_⟩
    · simp [jsonTupleToVals]
    · simp [valsToJson, canonTuple]
  | t :: trest, [], h => by simp [matchesTuple] at h
  | [], j :: jrest, h => by simp [matchesTuple] at h
  | t :: trest, j :: jrest, h => by
    simp only [matchesTuple, Bool.and_eq_true] at h
    obtain ⟨v, hv, hc⟩ := roundtrip_val t j h.1
    obtain ⟨vs, hvs, hcs⟩ := roundtrip_tuple trest jrest h.2
    refine ⟨v :: vs, ?_, ?_⟩
    · simp [jsonTupleToVals, hv, hvs, exceptBind_ok]
    · simp [valsToJson, canonTuple, hc, hcs]
  termination_by ts items h => (sizeOf ts, sizeOf items)

theorem roundtrip_record : ∀ (fs : List (String × Ty)) (o : List (String × Json)),
    matchesRecord o fs = true →
    ∃ flds, jsonRecordToVals o fs = .ok flds ∧
      valFieldsToJson flds = canonRecord o fs
  | [], o, h => by
    refine ⟨[], ?_, ?_⟩
    · simp [jsonRecordToVals]
    · simp [valFieldsToJson, canonRecord]
  | (fname, fty) :: rest, o, h => by
    simp only [matchesRecord, Bool.and_eq_true] at h
    obtain ⟨h1, h2⟩ := h
    obtain ⟨flds, hflds, hcf⟩ := roundtrip_record rest o h2
    cases hlk : lookupField o fname with
    | some jv =>
      rw [hlk] at h1
      simp only [matchesField] at h1
      obtain ⟨v, hv, hc⟩ := roundtrip_val fty jv h1
      refine ⟨(fname, v) :: flds, ?_, ?_⟩
      · simp [jsonRecordToVals, jsonFieldToVal, hlk, hv, hflds, exceptBind_ok]
      · simp [valFieldsToJson, canonRecord, canonField, hlk, hc, hcf]
    | none =>
      rw [hlk] at h1
      simp only [matchesField] at h1
      cases fty with
      | option et =>
        refine ⟨(fname, .option none) :: flds, ?_, ?_⟩
        · simp [jsonRecordToVals, jsonFieldToVal, hlk, isOptionTy, hflds, exceptBind_ok]
        · simp [valFieldsToJson, canonRecord, canonField, hlk, val_to_json, hcf]
      | bool => simp [isOptionTy] at h1
      | string => simp [isOptionTy] at h1
      | char => simp [isOptionTy] at h1
      | u8 => simp [isOptionTy] at h1
      | u16 => simp [isOptionTy] at h1
      | u32 => simp [isOptionTy] at h1
      | u64 => simp [isOptionTy] at h1
      | s8 => simp [isOptionTy] at h1
      | s16 => simp [isOptionTy] at h1
      | s32 => simp [isOptionTy] at h1
      | s64 => simp [isOptionTy] at h1
      | f32 => simp [isOptionTy] at h1
      | f64 => simp [isOptionTy] at h1
      | list et => simp [isOptionTy] at h1
      | tuple ts => simp [isOptionTy] at h1
      | record fs2 => simp [isOptionTy] at h1
  termination_by fs o h => (sizeOf fs, 0)

end

/-- C5 (amended): for every JSON value J and Component-Model type T (no
resource/future/stream leaves) such that J matches T — the shape discipline
of the converter with every numeric leaf an integer inside its target
type's range and no float leaf, float-typed or float-valued positions never
matching — converting J to a value at T succeeds and converting back yields
the canonicalized form of J (single-character strings preserved, absent
option-typed record fields replaced by null, record fields listed in record
order).  The float exclusion is forced: the program falsifies the law on
float leaves (integer-to-float conversion changes the serde number variant
and `f32` narrowing loses precision — see the counterexample), as the
integer-range restriction is forced by the truncation of C4. -/
theorem json_roundtrip (t : Ty) (j : Json) (h : Matches j t = true) :
    ∃ v, json_to_val j t = .ok v ∧ val_to_json v = canonicalize j t :=
  roundtrip_val t j h

/-- Counterexample for C5 as stated, on the three regions the amendment
excludes.  (1) Out-of-range integers: `json_to_val` accepts the JSON number
256 at `u8` but the round trip produces 0, not 256 (the truncation of C4).
(2) Integer at a float type: 1 at `f64` converts via `as_f64` to the double
1.0, which serializes as the serde `Float` number 1.0 — a different value
from the integer number 1 (serde number equality is per variant).
(3) Float at `f32`: the double 16777217 (= 2^24 + 1, exactly representable
in binary64) narrows by `as f32` to 16777216 (= the dyadic ⟨1, 24⟩), so the
round trip loses precision. -/
theorem json_roundtrip_counterexample :
    (json_to_val (.num 256) .u8 = .ok (.u8 0) ∧
     val_to_json (.u8 0) = .num 0 ∧
     canonicalize (.num 256) .u8 = .num 256 ∧
     Json.num 0 ≠ Json.num 256) ∧
    (json_to_val (.num 1) .f64 = .ok (.float64 ⟨1, 0⟩) ∧
     val_to_json (.float64 ⟨1, 0⟩) = .fnum ⟨1, 0⟩ ∧
     canonicalize (.num 1) .f64 = .num 1 ∧
     Json.fnum ⟨1, 0⟩ ≠ Json.num 1) ∧
    (json_to_val (.fnum ⟨16777217, 0⟩) .f32 = .ok (.float32 ⟨1, 24⟩) ∧
     val_to_json (.float32 ⟨1, 24⟩) = .fnum ⟨1, 24⟩ ∧
     canonicalize (.fnum ⟨16777217, 0⟩) .f32 = .fnum ⟨16777217, 0⟩ ∧
     Json.fnum ⟨1, 24⟩ ≠ Json.fnum ⟨16777217, 0⟩) := by
  refine ⟨⟨?_, ?_, ?_, ?_⟩, ⟨?_, ?_, ?_, ?_⟩, ⟨?_, ?_, ?_, ?_⟩⟩
  · simp [json_to_val, jsonAsU64, truncU]
  · simp [val_to_json]
  · simp [canonicalize]
  · intro hcontra
    simp at hcontra
  · have h1 : intToF64 1 = (⟨1, 0⟩ : FloatVal) := rfl
    simp [json_to_val, h1]
  · simp [val_to_json]
  · simp [canonicalize]
  · intro hcontra
    exact Json.noConfusion hcontra
  · have h2 : f64ToF32 ⟨16777217, 0⟩ = (⟨1, 24⟩ : FloatVal) := rfl
    simp [json_to_val, h2]
  · simp [val_to_json, f32ToF64]
  · simp [canonicalize]
  · intro hcontra
    have := Json.fnum.inj hcontra
    simp at this

/-- Witness for C5 on a compound value: a record with a list, a nested
optional record with a char, a tuple, and an absent optional field. -/
theorem json_roundtrip_witness :
    Matches witC5json witC5ty = true ∧
    json_to_val witC5json witC5ty = .ok witC5val ∧
    val_to_json witC5val = canonicalize witC5json witC5ty := by
  have hm : Matches witC5json witC5ty = true := by
    simp [Matches, matchesRecord, matchesField, matchesList, matchesTuple, witC5json, witC5ty,
      lookupField, isOptionTy, List.find?]
  have hcomp : json_to_val witC5json witC5ty = .ok witC5val := by
    simp [json_to_val, jsonListToVals, jsonTupleToVals, jsonRecordToVals, jsonFieldToVal,
      witC5json, witC5ty, witC5val, lookupField, isOptionTy, List.find?, jsonAsU64,
      jsonAsI64, truncU, truncS, exceptBind_ok]
  obtain ⟨v, hv, hrt⟩ := json_roundtrip witC5ty witC5json hm
  have hveq : v = witC5val := by
    rw [hcomp] at hv
    exact (Except.ok.inj hv).symm
  exact ⟨hm, hcomp, hveq ▸ hrt⟩

/-! ## C6 — toposort success, failure, and the build order -/

theorem mem_updateEdge {es : List (Nat × Nat × Edge)} {s t : Nat} {w : Edge}
    {e : Nat × Nat × Edge} (h : e ∈ updateEdge es s t w) : e ∈ es ∨ e = (s, t, w) := by
  unfold updateEdge at h
  split at h
  · obtain ⟨e', he', heq⟩ := List.mem_map.mp h
    split at heq
    · exact Or.inr heq.symm
    · exact Or.inl (heq ▸ he')
  · rcases List.mem_append.mp h with h1 | h1
    · exact Or.inl h1
    · exact Or.inr (by simpa using h1)

theorem mem_foldl_updateEdge (adds : List (Nat × Nat × Edge)) :
    ∀ (init : List (Nat × Nat × Edge)) (e : Nat × Nat × Edge),
      e ∈ adds.foldl (fun es a => updateEdge es a.1 a.2.1 a.2.2) init →
      e ∈ init ∨ e ∈ adds := by
  induction adds with
  | nil =>
    intro init e h
    exact Or.inl h
  | cons a rest ih =>
    intro init e h
    rw [List.foldl_cons] at h
    rcases ih _ e h with h1 | h1
    · rcases mem_updateEdge h1 with h2 | h2
      · exact Or.inl h2
      · refine Or.inr ?_
        rw [h2]
        exact List.mem_cons_self a rest
    · exact Or.inr (List.mem_cons_of_mem a h1)

theorem mem_applyOps {snapshot : List (Nat × Nat × Edge)} {removes : List (Nat × Nat)}
    {adds : List (Nat × Nat × Edge)} {e : Nat × Nat × Edge}
    (h : e ∈ applyOps snapshot removes adds) : e ∈ snapshot ∨ e ∈ adds := by
  unfold applyOps at h
  rcases mem_foldl_updateEdge adds _ e h with h1 | h1
  · exact Or.inl (List.mem_of_mem_filter h1)
  · exact Or.inr h1

theorem lookupByKey_foldl_insert (P : Nat → Prop) :
    ∀ (ps : List (Nat × String)) (init : List (String × Nat)),
      (∀ k v, lookupByKey init k = some v → P v) →
      (∀ p ∈ ps, P p.1) →
      ∀ k v, lookupByKey (ps.foldl (fun m p => insertByKey m p.2 p.1) init) k = some v →
        P v := by
  intro ps
  induction ps with
  | nil =>
    intro init hinit _ k v h
    exact hinit k v h
  | cons p rest ih =>
    intro init hinit hps k v h
    rw [List.foldl_cons] at h
    refine ih _ ?_ (fun q hq => hps q (List.mem_cons_of_mem p hq)) k v h
    intro k' v' h'
    by_cases hk : k' = p.2
    · subst hk
      rw [lookupByKey_insert_self] at h'
      exact (Option.some.inj h').symm ▸ hps p (List.mem_cons_self p rest)
    · rw [lookupByKey_insert_ne init p.2 k' p.1 hk] at h'
      exact hinit k' v' h'

theorem nodeMapOf_lt (cd : List ComponentDefinition) (rfd : List RuntimeFeatureDefinition) :
    ∀ k v, lookupByKey (nodeMapOf cd rfd) k = some v → v < (buildNodes cd rfd).length := by
  intro k v h
  unfold nodeMapOf at h
  refine lookupByKey_foldl_insert (fun w => w < (buildNodes cd rfd).length) _ [] ?_ ?_ k v h
  · intro k' v' h'
    simp [lookupByKey, List.find?] at h'
  · intro p hp
    have := List.fst_lt_of_mem_enum hp
    simpa [buildNodes] using this

theorem initialEdges_inner_range {nm : List (String × Nat)} {n : Nat}
    (hnm : ∀ k v, lookupByKey nm k = some v → v < n) (srcIdx : Nat) (hsrc : srcIdx < n) :
    ∀ (names : List String) (es : List (Nat × Nat × Edge)),
      (∀ e ∈ es, e.1 < n ∧ e.2.1 < n) →
      ∀ e ∈ names.foldl (fun es2 tname =>
          match lookupByKey nm tname with
          | some tIdx => updateEdge es2 tIdx srcIdx .dependency
          | none => es2) es, e.1 < n ∧ e.2.1 < n := by
  intro names
  induction names with
  | nil =>
    intro es hes e he
    exact hes e he
  | cons t rest ih =>
    intro es hes e he
    simp only [List.foldl_cons] at he
    cases hlk : lookupByKey nm t with
    | none =>
      rw [hlk] at he
      exact ih es hes e he
    | some tIdx =>
      rw [hlk] at he
      refine ih (updateEdge es tIdx srcIdx .dependency) ?_ e he
      intro e' he'
      rcases mem_updateEdge he' with h1 | h1
      · exact hes e' h1
      · subst h1
        exact ⟨hnm t tIdx hlk, hsrc⟩

theorem initialEdges_range {nm : List (String × Nat)} {n : Nat}
    (hnm : ∀ k v, lookupByKey nm k = some v → v < n) (cd : List ComponentDefinition) :
    ∀ e ∈ initialEdges cd nm, e.1 < n ∧ e.2.1 < n := by
  have main : ∀ (ds : List ComponentDefinition) (es : List (Nat × Nat × Edge)),
      (∀ e ∈ es, e.1 < n ∧ e.2.1 < n) →
      ∀ e ∈ ds.foldl (fun es d =>
          match lookupByKey nm d.name with
          | some srcIdx =>
            (effectiveExpects d).foldl
              (fun es2 tname =>
                match lookupByKey nm tname with
                | some tIdx => updateEdge es2 tIdx srcIdx .dependency
                | none => es2)
              es
          | none => es) es, e.1 < n ∧ e.2.1 < n := by
    intro ds
    induction ds with
    | nil =>
      intro es hes e he
      exact hes e he
    | cons d rest ih =>
      intro es hes e he
      simp only [List.foldl_cons] at he
      cases hlk : lookupByKey nm d.name with
      | none =>
        rw [hlk] at he
        exact ih es hes e he
      | some srcIdx =>
        rw [hlk] at he
        exact ih _ (initialEdges_inner_range hnm srcIdx (hnm d.name srcIdx hlk)
          (effectiveExpects d) es hes) e he
  intro e he
  exact main cd [] (by intro e' he'; simp at he') e he

theorem chainAddsAux_range {nm : List (String × Nat)} {n : Nat}
    (hnm : ∀ k v, lookupByKey nm k = some v → v < n) :
    ∀ (ds : List ComponentDefinition) (current target : Nat), current < n → target < n →
      ∀ e ∈ chainAddsAux nm current target ds, e.1 < n ∧ e.2.1 < n := by
  intro ds
  induction ds with
  | nil =>
    intro current target hc ht e he
    simp only [chainAddsAux, List.mem_singleton] at he
    subst he
    exact ⟨hc, ht⟩
  | cons i rest ih =>
    intro current target hc ht e he
    simp only [chainAddsAux] at he
    cases hlk : lookupByKey nm i.name with
    | none =>
      rw [hlk] at he
      exact ih current target hc ht e he
    | some idx =>
      rw [hlk] at he
      have he' : e = (current, idx, Edge.interceptor i.precedence) ∨
          e ∈ chainAddsAux nm idx target rest := by
        simpa using he
      rcases he' with h1 | h1
      · subst h1
        exact ⟨hc, hnm i.name idx hlk⟩
      · exact ih idx target (hnm i.name idx hlk) ht e h1

theorem redirectStep_adds_cases (cdefs : List ComponentDefinition) (nodes : List Node)
    (nm : List (String × Nat)) (snapshot : List (Nat × Nat × Edge)) (se : Nat × Nat × Edge) :
    (redirectStep cdefs nodes nm snapshot se).2 = [] ∨
      ∃ ds, (redirectStep cdefs nodes nm snapshot se).2 =
        chainAddsAux nm se.1 se.2.1 ds := by
  unfold redirectStep
  split
  · dsimp only
    split
    · exact Or.inl rfl
    · split
      · exact Or.inl rfl
      · exact Or.inr ⟨_, rfl⟩
  · exact Or.inl rfl

theorem redirectAdds_range {n : Nat} (cdefs : List ComponentDefinition) (nodes : List Node)
    (nm : List (String × Nat)) (snapshot : List (Nat × Nat × Edge))
    (hnm : ∀ k v, lookupByKey nm k = some v → v < n)
    (hsnap : ∀ e ∈ snapshot, e.1 < n ∧ e.2.1 < n) :
    ∀ e ∈ redirectAdds cdefs nodes nm snapshot, e.1 < n ∧ e.2.1 < n := by
  intro e he
  unfold redirectAdds at he
  obtain ⟨l, hl, hel⟩ := List.mem_flatten.mp he
  obtain ⟨se, hse, hfl⟩ := List.mem_map.mp hl
  subst hfl
  rcases redirectStep_adds_cases cdefs nodes nm snapshot se with hc | ⟨ds, hc⟩
  · rw [hc] at hel
    simp at hel
  · rw [hc] at hel
    exact chainAddsAux_range hnm ds se.1 se.2.1 (hsnap se hse).1 (hsnap se hse).2 e hel

theorem graphFinalEdges_range (cd : List ComponentDefinition)
    (rfd : List RuntimeFeatureDefinition) :
    ∀ e ∈ graphFinalEdges cd rfd,
      e.1 < (buildNodes cd rfd).length ∧ e.2.1 < (buildNodes cd rfd).length := by
  intro e he
  have hnm := nodeMapOf_lt cd rfd
  have hsnap := initialEdges_range hnm cd
  have he' : e ∈ applyOps (initialEdges cd (nodeMapOf cd rfd))
      (redirectRemoves cd (buildNodes cd rfd) (nodeMapOf cd rfd)
        (initialEdges cd (nodeMapOf cd rfd)))
      (redirectAdds cd (buildNodes cd rfd) (nodeMapOf cd rfd)
        (initialEdges cd (nodeMapOf cd rfd))) := he
  rcases mem_applyOps he' with h1 | h1
  · exact hsnap e h1
  · exact redirectAdds_range cd (buildNodes cd rfd) (nodeMapOf cd rfd)
      (initialEdges cd (nodeMapOf cd rfd)) hnm hsnap e h1

theorem edgePairs_range {n : Nat} {es : List (Nat × Nat × Edge)}
    (hes : ∀ e ∈ es, e.1 < n ∧ e.2.1 < n) :
    ∀ p ∈ edgePairs es, p.1 < n ∧ p.2 < n := by
  intro p hp
  obtain ⟨e, he, hpe⟩ := List.mem_map.mp hp
  exact hpe ▸ hes e he

theorem kahnAux_spec (edges : List (Nat × Nat)) (n : Nat) (fuel : Nat) :
    ∀ (remaining acc : List Nat),
      remaining.length ≤ fuel →
      (acc ++ remaining).Perm (List.range n) →
      (∀ k, (hk : k < acc.length) → ∀ u, (u, acc.get ⟨k, hk⟩) ∈ edges → u < n →
        u ∈ acc.take k) →
      ((kahnAux edges fuel remaining acc).1 ++ (kahnAux edges fuel remaining acc).2).Perm
          (List.range n) ∧
        (∀ k, (hk : k < (kahnAux edges fuel remaining acc).1.length) → ∀ u,
          (u, (kahnAux edges fuel remaining acc).1.get ⟨k, hk⟩) ∈ edges → u < n →
          u ∈ (kahnAux edges fuel remaining acc).1.take k) ∧
        (∀ v ∈ (kahnAux edges fuel remaining acc).2,
          ∃ u ∈ (kahnAux edges fuel remaining acc).2, (u, v) ∈ edges) := by
  induction fuel with
  | zero =>
    intro remaining acc hlen hperm hacc
    have hrem : remaining = [] := List.eq_nil_of_length_eq_zero (Nat.le_zero.mp hlen)
    subst hrem
    have hk0 : kahnAux edges 0 [] acc = (acc, []) := rfl
    rw [hk0]
    exact ⟨hperm, hacc, by simp⟩
  | succ fuel ih =>
    intro remaining acc hlen hperm hacc
    cases hfind : remaining.find? (noIncoming edges remaining) with
    | none =>
      have hk : kahnAux edges (fuel + 1) remaining acc = (acc, remaining) := by
        simp [kahnAux, hfind]
      rw [hk]
      refine ⟨hperm, hacc, ?_⟩
      intro v hv
      have hni := List.find?_eq_none.mp hfind v hv
      have hni2 : remaining.any (fun u => edges.contains (u, v)) = true := by
        unfold noIncoming at hni
        simpa using hni
      obtain ⟨u, hu, hue⟩ := List.any_eq_true.mp hni2
      exact ⟨u, hu, by simpa using hue⟩
    | some v =>
      have hvmem : v ∈ remaining := List.mem_of_find?_eq_some hfind
      have hni : noIncoming edges remaining v = true := List.find?_some hfind
      have hk : kahnAux edges (fuel + 1) remaining acc =
          kahnAux edges fuel (remaining.erase v) (acc ++ [v]) := by
        simp [kahnAux, hfind]
      rw [hk]
      apply ih
      · have hle := List.length_erase_of_mem hvmem
        have hpos : 0 < remaining.length := List.length_pos_of_mem hvmem
        omega
      · have h1 : (acc ++ [v]) ++ remaining.erase v = acc ++ (v :: remaining.erase v) := by
          simp
        rw [h1]
        have h2 : (v :: remaining.erase v).Perm remaining := (List.perm_cons_erase hvmem).symm
        exact (h2.append_left acc).trans hperm
      · intro k hk2 u hedge hun
        have hlenacc : (acc ++ [v]).length = acc.length + 1 := by simp
        by_cases hkl : k < acc.length
        · have hget : (acc ++ [v]).get ⟨k, hk2⟩ = acc.get ⟨k, hkl⟩ := by
            simp [List.get_eq_getElem, List.getElem_append_left hkl]
          rw [hget] at hedge
          have hmem := hacc k hkl u hedge hun
          rw [List.take_append_of_le_length (le_of_lt hkl)]
          exact hmem
        · have hkeq : k = acc.length := by
            rw [hlenacc] at hk2
            omega
          subst hkeq
          have hget : (acc ++ [v]).get ⟨acc.length, hk2⟩ = v := by
            simp [List.get_eq_getElem, List.getElem_append_right (le_refl acc.length)]
          rw [hget] at hedge
          have hurange : u ∈ List.range n := List.mem_range.mpr hun
          have humem : u ∈ acc ++ remaining := (hperm.mem_iff).mpr hurange
          rw [List.take_append_of_le_length (le_refl acc.length), List.take_length]
          rcases List.mem_append.mp humem with hua | hur
          · exact hua
          · exfalso
            unfold noIncoming at hni
            have hnone : remaining.any (fun u => edges.contains (u, v)) = false := by
              simpa using hni
            have hco : remaining.any (fun w => edges.contains (w, v)) = true :=
              List.any_eq_true.mpr ⟨u, hur, List.elem_eq_true_of_mem hedge⟩
            rw [hnone] at hco
            exact Bool.false_ne_true hco

theorem findCycleNodeAux_spec (edges : List (Nat × Nat)) (stuck : List Nat)
    (hstuck : ∀ w ∈ stuck, ∃ u ∈ stuck, (u, w) ∈ edges) :
    ∀ (fuel : Nat) (visited : List Nat) (cur : Nat),
      cur ∈ stuck → visited ⊆ stuck → visited.Nodup →
      IsEdgeChain edges (cur :: visited) →
      stuck.length < fuel + visited.length →
      findCycleNodeAux edges stuck fuel visited cur ∈ stuck ∧
        OnCycle edges (findCycleNodeAux edges stuck fuel visited cur) := by
  intro fuel
  induction fuel with
  | zero =>
    intro visited cur hcur hsub hnd _ hlen
    exfalso
    have := (hnd.subperm hsub).length_le
    omega
  | succ fuel ih =>
    intro visited cur hcur hsub hnd hchain hlen
    by_cases hvis : cur ∈ visited
    · have hres : findCycleNodeAux edges stuck (fuel + 1) visited cur = cur := by
        simp [findCycleNodeAux, hvis]
      rw [hres]
      refine ⟨hcur, ?_⟩
      obtain ⟨pre, post, hsplit⟩ := List.append_of_mem hvis
      refine ⟨pre, ?_⟩
      have hpref : (cur :: (pre ++ [cur])) <+: (cur :: visited) := by
        rw [hsplit]
        refine ⟨post, ?_⟩
        simp
      exact List.Chain'.prefix hchain hpref
    · cases hfind : stuck.find? (fun u => edges.contains (u, cur)) with
      | none =>
        exfalso
        obtain ⟨u, hu, hue⟩ := hstuck cur hcur
        have := List.find?_eq_none.mp hfind u hu
        exact this (List.elem_eq_true_of_mem hue)
      | some u =>
        have hres : findCycleNodeAux edges stuck (fuel + 1) visited cur =
            findCycleNodeAux edges stuck fuel (cur :: visited) u := by
          rw [findCycleNodeAux, if_neg hvis, hfind]
        rw [hres]
        apply ih (cur :: visited) u
        · exact List.mem_of_find?_eq_some hfind
        · intro x hx
          rcases List.mem_cons.mp hx with hx1 | hx2
          · exact hx1 ▸ hcur
          · exact hsub hx2
        · exact List.nodup_cons.mpr ⟨hvis, hnd⟩
        · show List.Chain' (fun a b => (a, b) ∈ edges) (u :: cur :: visited)
          refine List.chain'_cons.mpr ⟨?_, hchain⟩
          have := List.find?_some hfind
          simpa using this
        · simp only [List.length_cons]
          omega

theorem toposortModel_ok {n : Nat} {edges : List (Nat × Nat)} {order : List Nat}
    (h : toposortModel n edges = .ok order) : IsTopoOrder n edges order := by
  unfold toposortModel at h
  have spec := kahnAux_spec edges n n (List.range n) []
    (by simp) (by simp) (by intro k hk; simp at hk)
  rcases hkr : kahnAux edges n (List.range n) [] with ⟨acc, stuck⟩
  rw [hkr] at h spec
  cases stuck with
  | cons s rest => simp at h
  | nil =>
    have hacc : acc = order := by simpa using h
    subst hacc
    obtain ⟨hperm, hprop, _⟩ := spec
    refine ⟨?_, ?_, hprop⟩
    · have := (hperm.symm).nodup (List.nodup_range n)
      simpa using this
    · intro v
      have hmi : v ∈ acc ++ ([] : List Nat) ↔ v ∈ List.range n := hperm.mem_iff
      simpa using hmi

theorem toposortModel_error {n : Nat} {edges : List (Nat × Nat)} {v : Nat}
    (h : toposortModel n edges = .error v) : v < n ∧ OnCycle edges v := by
  unfold toposortModel at h
  have spec := kahnAux_spec edges n n (List.range n) []
    (by simp) (by simp) (by intro k hk; simp at hk)
  rcases hkr : kahnAux edges n (List.range n) [] with ⟨acc, stuck⟩
  rw [hkr] at h spec
  cases stuck with
  | nil => simp at h
  | cons s rest =>
    have hv : v = findCycleNode edges (s :: rest) := by
      have h2 : @Except.error Nat (List Nat) (findCycleNode edges (s :: rest)) =
          Except.error v := by simpa using h
      exact (Except.error.inj h2).symm
    have hstuck : ∀ w ∈ s :: rest, ∃ u ∈ s :: rest, (u, w) ∈ edges := spec.2.2
    have hrange : ∀ w ∈ s :: rest, w < n := by
      intro w hw
      have hm : w ∈ acc ++ s :: rest := List.mem_append.mpr (Or.inr hw)
      have := (spec.1.mem_iff).mp hm
      exact List.mem_range.mp this
    have hmain := findCycleNodeAux_spec edges (s :: rest) hstuck ((s :: rest).length + 1) [] s
      (by simp) (by simp) (by simp)
      (by exact List.chain'_singleton s)
      (by simp)
    rw [hv]
    exact ⟨hrange _ hmain.1, hmain.2⟩

theorem indexOf_lt_of_mem_take {l : List Nat} :
    ∀ {k a : Nat}, a ∈ l.take k → List.indexOf a l < k := by
  induction l with
  | nil =>
    intro k a h
    simp at h
  | cons x xs ih =>
    intro k a h
    cases k with
    | zero => simp at h
    | succ k' =>
      rw [List.take_succ_cons] at h
      rcases List.mem_cons.mp h with h1 | h2
      · subst h1
        simp [List.indexOf_cons]
      · by_cases hax : x = a
        · subst hax
          simp [List.indexOf_cons]
        · rw [List.indexOf_cons]
          have hbeq : (x == a) = false := beq_eq_false_iff_ne.mpr hax
          rw [hbeq]
          simp only [cond_false]
          have := ih h2
          omega

theorem topo_acyclic {n : Nat} {edges : List (Nat × Nat)} {order : List Nat}
    (ht : IsTopoOrder n edges order)
    (hrange : ∀ p ∈ edges, p.1 < n ∧ p.2 < n) : ¬ Cyclic edges := by
  obtain ⟨hnd, hmem, hprop⟩ := ht
  have hrank : ∀ a b, (a, b) ∈ edges → List.indexOf a order < List.indexOf b order := by
    intro a b hab
    have hbn : b < n := (hrange (a, b) hab).2
    have han : a < n := (hrange (a, b) hab).1
    have hbo : b ∈ order := (hmem b).mpr hbn
    have hk : List.indexOf b order < order.length := List.indexOf_lt_length.mpr hbo
    have hget : order.get ⟨List.indexOf b order, hk⟩ = b := List.indexOf_get hk
    have htk := hprop (List.indexOf b order) hk a (by rw [hget]; exact hab) han
    exact indexOf_lt_of_mem_take htk
  have hchain : ∀ (p : List Nat) (v w : Nat),
      IsEdgeChain edges (v :: (p ++ [w])) → List.indexOf v order < List.indexOf w order := by
    intro p
    induction p with
    | nil =>
      intro v w hc
      have hc' : List.Chain' (fun a b => (a, b) ∈ edges) (v :: [w]) := hc
      exact hrank v w (List.chain'_cons.mp hc').1
    | cons a p' ih =>
      intro v w hc
      have hc' : List.Chain' (fun x y => (x, y) ∈ edges) (v :: a :: (p' ++ [w])) := hc
      have h1 := (List.chain'_cons.mp hc').1
      have h2 := (List.chain'_cons.mp hc').2
      exact lt_trans (hrank v a h1) (ih a w h2)
  rintro ⟨v, p, hcyc⟩
  exact lt_irrefl _ (hchain p v v hcyc)

/-- C6: `ComponentGraph::build` succeeds exactly when the graph obtained
after interceptor redirection is acyclic; when the toposort fails the build
returns the circular-dependency error naming a node that lies on a cycle,
and every graph the builder returns admits a topological order of all its
nodes — the one `get_build_order` produces. -/
theorem componentGraph_build_toposort (cd : List ComponentDefinition)
    (rfd : List RuntimeFeatureDefinition) :
    ((∃ g, ComponentGraph_build cd rfd = .ok g) ↔
        ¬ Cyclic (edgePairs (graphFinalEdges cd rfd))) ∧
      (∀ g, ComponentGraph_build cd rfd = .ok g →
        g.edges = graphFinalEdges cd rfd ∧
          IsTopoOrder g.nodes.length (edgePairs g.edges) (get_build_order g)) ∧
      (∀ msg, ComponentGraph_build cd rfd = .error msg →
        ∃ v, v < (buildNodes cd rfd).length ∧
          OnCycle (edgePairs (graphFinalEdges cd rfd)) v ∧
          msg = "Circular dependency detected involving '" ++
            (match (buildNodes cd rfd)[v]? with
             | some nd => nodeName nd
             | none => "") ++ "'") := by
  have hrange : ∀ pr ∈ edgePairs (graphFinalEdges cd rfd),
      pr.1 < (buildNodes cd rfd).length ∧ pr.2 < (buildNodes cd rfd).length :=
    edgePairs_range (graphFinalEdges_range cd rfd)
  have hunf : ComponentGraph_build cd rfd =
      (match toposortModel (buildNodes cd rfd).length
          (edgePairs (graphFinalEdges cd rfd)) with
       | .ok _ =>
         Except.ok (⟨buildNodes cd rfd, graphFinalEdges cd rfd,
           nodeMapOf cd rfd⟩ : ComponentGraph)
       | .error v =>
         Except.error ("Circular dependency detected involving '" ++
           (match (buildNodes cd rfd)[v]? with
            | some nd => nodeName nd
            | none => "") ++ "'")) := rfl
  rcases htp : toposortModel (buildNodes cd rfd).length
      (edgePairs (graphFinalEdges cd rfd)) with v | order
  · rw [htp] at hunf
    have herr := toposortModel_error htp
    refine ⟨?_, ?_, ?_⟩
    · constructor
      · rintro ⟨g, hg⟩
        rw [hunf] at hg
        exact absurd hg (by simp)
      · intro hnc
        exact absurd ⟨v, herr.2⟩ hnc
    · intro g hg
      rw [hunf] at hg
      exact absurd hg (by simp)
    · intro msg hmsg
      rw [hunf] at hmsg
      have hm2 : msg = "Circular dependency detected involving '" ++
          (match (buildNodes cd rfd)[v]? with
           | some nd => nodeName nd
           | none => "") ++ "'" := by
        have := Except.error.inj hmsg
        exact this.symm
      exact ⟨v, herr.1, herr.2, hm2⟩
  · rw [htp] at hunf
    have hord := toposortModel_ok htp
    refine ⟨?_, ?_, ?_⟩
    · constructor
      · intro _
        exact topo_acyclic hord hrange
      · intro _
        exact ⟨_, hunf⟩
    · intro g hg
      rw [hunf] at hg
      have hge : (⟨buildNodes cd rfd, graphFinalEdges cd rfd,
          nodeMapOf cd rfd⟩ : ComponentGraph) = g := Except.ok.inj hg
      have hgb : get_build_order g = order := by
        rw [← hge]
        unfold get_build_order
        show (match toposortModel (buildNodes cd rfd).length
            (edgePairs (graphFinalEdges cd rfd)) with
          | .ok order => order
          | .error _ => []) = order
        rw [htp]
      refine ⟨?_, ?_⟩
      · rw [← hge]
      · rw [hgb, ← hge]
        exact hord
    · intro msg hmsg
      rw [hunf] at hmsg
      exact absurd hmsg (by simp)

/-- Witness for C6: the two-component cycle `a → b → a` makes the build fail
with the circular-dependency message naming `a`, which lies on a cycle of the
redirected graph. -/
theorem componentGraph_build_toposort_witness :
    ∃ v, v < (buildNodes cycC6defs []).length ∧
      OnCycle (edgePairs (graphFinalEdges cycC6defs [])) v ∧
      "Circular dependency detected involving 'a'" =
        "Circular dependency detected involving '" ++
          (match (buildNodes cycC6defs [])[v]? with
           | some nd => nodeName nd
           | none => "") ++ "'" :=
  (componentGraph_build_toposort cycC6defs []).2.2
    "Circular dependency detected involving 'a'" (by rfl)

/-! ## C1 — interceptor chain redirection -/

theorem find_updated_self (es : List (Nat × Nat × Edge)) (s t : Nat) (w : Edge)
    (hany : es.any (fun e => e.1 == s && e.2.1 == t) = true) :
    (es.map (fun e => if e.1 == s && e.2.1 == t then (s, t, w) else e)).find?
        (fun e => e.1 == s && e.2.1 == t) = some (s, t, w) := by
  induction es with
  | nil => simp at hany
  | cons e rest ih =>
    by_cases hp : (e.1 == s && e.2.1 == t) = true
    · simp only [List.map_cons, if_pos hp]
      exact @List.find?_cons_of_pos _ (fun e0 => e0.1 == s && e0.2.1 == t) (s, t, w) _
        (by simp)
    · simp only [List.map_cons, if_neg hp]
      rw [@List.find?_cons_of_neg _ (fun e0 => e0.1 == s && e0.2.1 == t) e _ hp]
      apply ih
      have h2 := hany
      rw [List.any_cons, Bool.or_eq_true] at h2
      rcases h2 with h2 | h2
      · exact absurd h2 hp
      · exact h2

theorem find_updated_ne (es : List (Nat × Nat × Edge)) (s t s' t' : Nat) (w : Edge)
    (hne : ¬ (s' = s ∧ t' = t)) :
    (es.map (fun e => if e.1 == s && e.2.1 == t then (s, t, w) else e)).find?
        (fun e => e.1 == s' && e.2.1 == t') =
      es.find? (fun e => e.1 == s' && e.2.1 == t') := by
  induction es with
  | nil => rfl
  | cons e rest ih =>
    by_cases hp : (e.1 == s && e.2.1 == t) = true
    · simp only [List.map_cons, if_pos hp]
      obtain ⟨hes, het⟩ : e.1 = s ∧ e.2.1 = t := by simpa using hp
      have hw : ¬ (((s, t, w) : Nat × Nat × Edge).1 == s' &&
          ((s, t, w) : Nat × Nat × Edge).2.1 == t') = true := by
        simp only [Bool.and_eq_true, beq_iff_eq]
        intro hc
        exact hne ⟨hc.1.symm, hc.2.symm⟩
      have he' : ¬ (e.1 == s' && e.2.1 == t') = true := by
        simp only [Bool.and_eq_true, beq_iff_eq, hes, het]
        intro hc
        exact hne ⟨hc.1.symm, hc.2.symm⟩
      rw [@List.find?_cons_of_neg _ (fun e0 => e0.1 == s' && e0.2.1 == t') (s, t, w) _ hw,
        @List.find?_cons_of_neg _ (fun e0 => e0.1 == s' && e0.2.1 == t') e _ he']
      exact ih
    · simp only [List.map_cons, if_neg hp]
      by_cases hq : (e.1 == s' && e.2.1 == t') = true
      · rw [@List.find?_cons_of_pos _ (fun e0 => e0.1 == s' && e0.2.1 == t') e _ hq,
          @List.find?_cons_of_pos _ (fun e0 => e0.1 == s' && e0.2.1 == t') e _ hq]
      · rw [@List.find?_cons_of_neg _ (fun e0 => e0.1 == s' && e0.2.1 == t') e _ hq,
          @List.find?_cons_of_neg _ (fun e0 => e0.1 == s' && e0.2.1 == t') e _ hq]
        exact ih

theorem lookupEdge_updateEdge_self (es : List (Nat × Nat × Edge)) (s t : Nat) (w : Edge) :
    lookupEdge (updateEdge es s t w) s t = some w := by
  unfold updateEdge lookupEdge
  split
  · rename_i hany
    rw [find_updated_self es s t w hany]
    rfl
  · rename_i hany
    rw [List.find?_append]
    have hnone : es.find? (fun e => e.1 == s && e.2.1 == t) = none := by
      rw [List.find?_eq_none]
      intro x hx hpx
      exact hany (List.any_eq_true.mpr ⟨x, hx, hpx⟩)
    simp [hnone, List.find?]

theorem lookupEdge_updateEdge_ne (es : List (Nat × Nat × Edge)) (s t s' t' : Nat) (w : Edge)
    (hne : ¬ (s' = s ∧ t' = t)) :
    lookupEdge (updateEdge es s t w) s' t' = lookupEdge es s' t' := by
  unfold updateEdge lookupEdge
  split
  · rw [find_updated_ne es s t s' t' w hne]
  · rw [List.find?_append]
    have hsingle : List.find? (fun e => e.1 == s' && e.2.1 == t') [(s, t, w)] = none := by
      rw [List.find?_eq_none]
      intro x hx hpx
      have hxv : x = (s, t, w) := by simpa using hx
      rw [hxv] at hpx
      have hc : s = s' ∧ t = t' := by simpa using hpx
      exact hne ⟨hc.1.symm, hc.2.symm⟩
    rw [hsingle]
    cases List.find? (fun e => e.1 == s' && e.2.1 == t') es <;> rfl

theorem lookupEdge_foldl_no_pair (adds : List (Nat × Nat × Edge)) :
    ∀ (init : List (Nat × Nat × Edge)) (s t : Nat),
      (∀ b ∈ adds, ¬ (b.1 = s ∧ b.2.1 = t)) →
      lookupEdge (adds.foldl (fun es a => updateEdge es a.1 a.2.1 a.2.2) init) s t =
        lookupEdge init s t := by
  induction adds with
  | nil =>
    intro init s t _
    rfl
  | cons a rest ih =>
    intro init s t hno
    rw [List.foldl_cons]
    rw [ih _ s t (fun b hb => hno b (List.mem_cons_of_mem a hb))]
    refine lookupEdge_updateEdge_ne init a.1 a.2.1 s t a.2.2 ?_
    intro hc
    exact hno a (List.mem_cons_self a rest) ⟨hc.1.symm, hc.2.symm⟩

theorem lookupEdge_foldl_last (adds : List (Nat × Nat × Edge)) :
    ∀ (init : List (Nat × Nat × Edge)) (s t : Nat) (w : Edge),
      (s, t, w) ∈ adds →
      (∀ b ∈ adds, b.1 = s → b.2.1 = t → b.2.2 = w) →
      lookupEdge (adds.foldl (fun es a => updateEdge es a.1 a.2.1 a.2.2) init) s t =
        some w := by
  induction adds with
  | nil =>
    intro init s t w hmem _
    simp at hmem
  | cons a rest ih =>
    intro init s t w hmem hsame
    rw [List.foldl_cons]
    by_cases hrest : ∃ b ∈ rest, b.1 = s ∧ b.2.1 = t
    · obtain ⟨b, hb, hbs, hbt⟩ := hrest
      have hbw : b.2.2 = w := hsame b (List.mem_cons_of_mem a hb) hbs hbt
      have hbeq : b = (s, t, w) := by
        obtain ⟨b1, b2, b3⟩ := b
        simp only at hbs hbt hbw
        rw [hbs, hbt, hbw]
      exact ih _ s t w (hbeq ▸ hb) (fun b' hb' => hsame b' (List.mem_cons_of_mem a hb'))
    · have hno : ∀ b ∈ rest, ¬ (b.1 = s ∧ b.2.1 = t) := by
        intro b hb hc
        exact hrest ⟨b, hb, hc⟩
      rw [lookupEdge_foldl_no_pair rest _ s t hno]
      rcases List.mem_cons.mp hmem with ha | hr
      · rw [← ha]
        exact lookupEdge_updateEdge_self init s t w
      · exact absurd ⟨rfl, rfl⟩ (hno _ hr)

theorem lookupEdge_filter_removed (snapshot : List (Nat × Nat × Edge))
    (removes : List (Nat × Nat)) {s t : Nat} (hrm : (s, t) ∈ removes) :
    lookupEdge (snapshot.filter (fun e => !(removes.contains (e.1, e.2.1)))) s t = none := by
  unfold lookupEdge
  have hfind : (snapshot.filter (fun e => !(removes.contains (e.1, e.2.1)))).find?
      (fun e => e.1 == s && e.2.1 == t) = none := by
    rw [List.find?_eq_none]
    intro e he hpe
    have hmf := List.mem_filter.mp he
    have h1 : ((e.1, e.2.1) ∈ removes) → False := by
      intro hmem
      have := List.elem_eq_true_of_mem hmem
      have h2 : removes.contains (e.1, e.2.1) = false := by
        simpa using hmf.2
      have h3 : List.elem (e.1, e.2.1) removes = false := h2
      rw [h3] at this
      exact Bool.false_ne_true this
    obtain ⟨hes, het⟩ : e.1 = s ∧ e.2.1 = t := by simpa using hpe
    apply h1
    rw [hes, het]
    exact hrm
  rw [hfind]
  rfl

theorem lookupEdge_applyOps_last {snapshot : List (Nat × Nat × Edge)}
    {removes : List (Nat × Nat)} {adds : List (Nat × Nat × Edge)} {s t : Nat} {w : Edge}
    (hmem : (s, t, w) ∈ adds)
    (hsame : ∀ b ∈ adds, b.1 = s → b.2.1 = t → b.2.2 = w) :
    lookupEdge (applyOps snapshot removes adds) s t = some w := by
  unfold applyOps
  exact lookupEdge_foldl_last adds _ s t w hmem hsame

theorem lookupEdge_applyOps_removed {snapshot : List (Nat × Nat × Edge)}
    {removes : List (Nat × Nat)} {adds : List (Nat × Nat × Edge)} {s t : Nat}
    (hno : ∀ b ∈ adds, ¬ (b.1 = s ∧ b.2.1 = t)) (hrm : (s, t) ∈ removes) :
    lookupEdge (applyOps snapshot removes adds) s t = none := by
  unfold applyOps
  rw [lookupEdge_foldl_no_pair adds _ s t hno]
  exact lookupEdge_filter_removed snapshot removes hrm

theorem redirectStep_eq {cdefs : List ComponentDefinition} {nodes : List Node}
    {nm : List (String × Nat)} {snapshot : List (Nat × Nat × Edge)}
    {p c : Nat} {w0 : Edge} {cdef : ComponentDefinition}
    (hcons : nodes[c]? = some (Node.component cdef))
    (hne : (enabledInterceptors cdefs (match nodes[p]? with
        | some nd => nodeName nd
        | none => "") cdef).isEmpty = false)
    (hself : (enabledInterceptors cdefs (match nodes[p]? with
        | some nd => nodeName nd
        | none => "") cdef).any (fun i => i.name == cdef.name) = false) :
    redirectStep cdefs nodes nm snapshot (p, c, w0) =
      (tailRemoves nm snapshot p
          (((enabledInterceptors cdefs (match nodes[p]? with
              | some nd => nodeName nd
              | none => "") cdef).insertionSort precLe).drop 1) ++ [(p, c)],
       chainAddsAux nm p c ((enabledInterceptors cdefs (match nodes[p]? with
          | some nd => nodeName nd
          | none => "") cdef).insertionSort precLe)) := by
  unfold redirectStep
  split
  · rename_i consumer hmatch
    have hsome : some (Node.component cdef) = some (Node.component consumer) :=
      hcons.symm.trans hmatch
    have hcdef : cdef = consumer := Node.component.inj (Option.some.inj hsome)
    subst hcdef
    dsimp only
    rw [hne]
    simp only [Bool.false_eq_true, if_false]
    rw [hself]
    simp only [Bool.false_eq_true, if_false]
  · rename_i hnc
    exact absurd hcons (by intro hc; exact hnc cdef hc)

theorem mem_redirectAdds_of_step {cdefs : List ComponentDefinition} {nodes : List Node}
    {nm : List (String × Nat)} {snapshot : List (Nat × Nat × Edge)}
    {e0 : Nat × Nat × Edge} {a : Nat × Nat × Edge}
    (he0 : e0 ∈ snapshot) (ha : a ∈ (redirectStep cdefs nodes nm snapshot e0).2) :
    a ∈ redirectAdds cdefs nodes nm snapshot := by
  unfold redirectAdds
  exact List.mem_flatten.mpr ⟨_, List.mem_map_of_mem _ he0, ha⟩

theorem mem_redirectRemoves_of_step {cdefs : List ComponentDefinition} {nodes : List Node}
    {nm : List (String × Nat)} {snapshot : List (Nat × Nat × Edge)}
    {e0 : Nat × Nat × Edge} {r : Nat × Nat}
    (he0 : e0 ∈ snapshot) (hr : r ∈ (redirectStep cdefs nodes nm snapshot e0).1) :
    r ∈ redirectRemoves cdefs nodes nm snapshot := by
  unfold redirectRemoves
  exact List.mem_flatten.mpr ⟨_, List.mem_map_of_mem _ he0, hr⟩

theorem chainAddsAux_spine {nm : List (String × Nat)} :
    ∀ (ds : List ComponentDefinition) (cur target : Nat),
      (∀ i ∈ ds, lookupByKey nm i.name = some (idxOfDef nm i)) →
      ∀ k, k < ds.length + 1 →
        ((cur :: ds.map (idxOfDef nm)).getD k 0,
         (ds.map (idxOfDef nm) ++ [target]).getD k 0,
         if k < ds.length then Edge.interceptor ((ds.map (·.precedence)).getD k 0)
         else Edge.dependency) ∈ chainAddsAux nm cur target ds := by
  intro ds
  induction ds with
  | nil =>
    intro cur target _ k hk
    have hk0 : k = 0 := by
      simp only [List.length_nil] at hk
      omega
    subst hk0
    simp [chainAddsAux]
  | cons i rest ih =>
    intro cur target hres k hk
    have hlk := hres i (List.mem_cons_self i rest)
    have hstep : chainAddsAux nm cur target (i :: rest) =
        (cur, idxOfDef nm i, Edge.interceptor i.precedence) ::
          chainAddsAux nm (idxOfDef nm i) target rest := by
      simp only [chainAddsAux]
      rw [hlk]
    rw [hstep]
    cases k with
    | zero =>
      have hc : ((cur :: (i :: rest).map (idxOfDef nm)).getD 0 0,
          ((i :: rest).map (idxOfDef nm) ++ [target]).getD 0 0,
          if 0 < (i :: rest).length then
            Edge.interceptor (((i :: rest).map (·.precedence)).getD 0 0)
          else Edge.dependency) =
          (cur, idxOfDef nm i, Edge.interceptor i.precedence) := by
        simp
      rw [hc]
      exact List.mem_cons_self _ _
    | succ k' =>
      have hk' : k' < rest.length + 1 := by
        simp only [List.length_cons] at hk
        omega
      have hmem := ih (idxOfDef nm i) target
        (fun j hj => hres j (List.mem_cons_of_mem i hj)) k' hk'
      have hc : ((cur :: (i :: rest).map (idxOfDef nm)).getD (k' + 1) 0,
          ((i :: rest).map (idxOfDef nm) ++ [target]).getD (k' + 1) 0,
          if k' + 1 < (i :: rest).length then
            Edge.interceptor (((i :: rest).map (·.precedence)).getD (k' + 1) 0)
          else Edge.dependency) =
          ((idxOfDef nm i :: rest.map (idxOfDef nm)).getD k' 0,
           (rest.map (idxOfDef nm) ++ [target]).getD k' 0,
           if k' < rest.length then
             Edge.interceptor ((rest.map (·.precedence)).getD k' 0)
           else Edge.dependency) := by
        simp only [List.map_cons, List.getD_cons_succ, List.cons_append, List.length_cons,
          Nat.add_lt_add_iff_right]
      rw [hc]
      exact List.mem_cons_of_mem _ hmem

/-- C1 (amended): for a provider `p` and non-interceptor consumer component
`c` joined by an initial edge, when the enabled interceptor set I of the
provider for that consumer is non-empty (and the consumer is not itself one
of them), the builder sorts I ascending by precedence — stably: the sort is
a permutation, is sorted, and preserves every already-ordered subsequence —
and, provided no other redirection writes any chain pair with a different
label and none re-adds the `p → c` pair, the final graph carries the chain
`p → I0 → … → I(n-1) → c`: each edge into an interceptor is labelled with
that interceptor's precedence and the last edge into `c` is `Dependency`,
while the original `p → c` edge is gone.  (Unconditionally, overlapping
redirections overwrite chain labels pair-wise, last write wins — see the
counterexample.) -/
theorem interceptor_chain_redirection
    (cd : List ComponentDefinition) (rfd : List RuntimeFeatureDefinition)
    (p c : Nat) (w0 : Edge) (cdef : ComponentDefinition) (pname : String)
    (hsnap : (p, c, w0) ∈ initialEdges cd (nodeMapOf cd rfd))
    (hcons : (buildNodes cd rfd)[c]? = some (Node.component cdef))
    (hpn : pname = (match (buildNodes cd rfd)[p]? with
                    | some nd => nodeName nd
                    | none => ""))
    (hne : enabledInterceptors cd pname cdef ≠ [])
    (hself : ∀ i ∈ enabledInterceptors cd pname cdef, ¬ i.name = cdef.name)
    (hres : ∀ i ∈ enabledInterceptors cd pname cdef,
      lookupByKey (nodeMapOf cd rfd) i.name = some (idxOfDef (nodeMapOf cd rfd) i))
    (huniq : ∀ a ∈ chainAddsAux (nodeMapOf cd rfd) p c
        ((enabledInterceptors cd pname cdef).insertionSort precLe),
      ∀ b ∈ redirectAdds cd (buildNodes cd rfd) (nodeMapOf cd rfd)
          (initialEdges cd (nodeMapOf cd rfd)),
        b.1 = a.1 → b.2.1 = a.2.1 → b.2.2 = a.2.2)
    (hnopc : ∀ b ∈ redirectAdds cd (buildNodes cd rfd) (nodeMapOf cd rfd)
        (initialEdges cd (nodeMapOf cd rfd)), ¬ (b.1 = p ∧ b.2.1 = c)) :
    ((enabledInterceptors cd pname cdef).insertionSort precLe).Perm
        (enabledInterceptors cd pname cdef) ∧
      List.Sorted precLe ((enabledInterceptors cd pname cdef).insertionSort precLe) ∧
      (∀ l2 : List ComponentDefinition, List.Pairwise precLe l2 →
        List.Sublist l2 (enabledInterceptors cd pname cdef) →
        List.Sublist l2 ((enabledInterceptors cd pname cdef).insertionSort precLe)) ∧
      (∀ k, k < ((enabledInterceptors cd pname cdef).insertionSort precLe).length + 1 →
        lookupEdge (graphFinalEdges cd rfd)
            ((p :: ((enabledInterceptors cd pname cdef).insertionSort precLe).map
                (idxOfDef (nodeMapOf cd rfd))).getD k 0)
            ((((enabledInterceptors cd pname cdef).insertionSort precLe).map
                (idxOfDef (nodeMapOf cd rfd)) ++ [c]).getD k 0) =
          some (if k < ((enabledInterceptors cd pname cdef).insertionSort precLe).length
                then Edge.interceptor
                  ((((enabledInterceptors cd pname cdef).insertionSort precLe).map
                    (·.precedence)).getD k 0)
                else Edge.dependency)) ∧
      lookupEdge (graphFinalEdges cd rfd) p c = none := by
  subst hpn
  have hne' : (enabledInterceptors cd (match (buildNodes cd rfd)[p]? with
      | some nd => nodeName nd
      | none => "") cdef).isEmpty = false := by
    cases hE : enabledInterceptors cd (match (buildNodes cd rfd)[p]? with
        | some nd => nodeName nd
        | none => "") cdef with
    | nil => exact absurd hE hne
    | cons x xs => rfl
  have hself' : (enabledInterceptors cd (match (buildNodes cd rfd)[p]? with
      | some nd => nodeName nd
      | none => "") cdef).any (fun i => i.name == cdef.name) = false := by
    cases hA : (enabledInterceptors cd (match (buildNodes cd rfd)[p]? with
        | some nd => nodeName nd
        | none => "") cdef).any (fun i => i.name == cdef.name) with
    | false => rfl
    | true =>
      obtain ⟨i, hi, hp⟩ := List.any_eq_true.mp hA
      exact absurd (by simpa using hp) (hself i hi)
  have hstep := @redirectStep_eq cd (buildNodes cd rfd) (nodeMapOf cd rfd)
    (initialEdges cd (nodeMapOf cd rfd)) p c w0 cdef hcons hne' hself'
  have hres2 : ∀ i ∈ (enabledInterceptors cd (match (buildNodes cd rfd)[p]? with
      | some nd => nodeName nd
      | none => "") cdef).insertionSort precLe,
      lookupByKey (nodeMapOf cd rfd) i.name = some (idxOfDef (nodeMapOf cd rfd) i) :=
    fun i hi => hres i ((List.perm_insertionSort precLe _).mem_iff.mp hi)
  have hchmem : ∀ a ∈ chainAddsAux (nodeMapOf cd rfd) p c
      ((enabledInterceptors cd (match (buildNodes cd rfd)[p]? with
        | some nd => nodeName nd
        | none => "") cdef).insertionSort precLe),
      a ∈ redirectAdds cd (buildNodes cd rfd) (nodeMapOf cd rfd)
        (initialEdges cd (nodeMapOf cd rfd)) := by
    intro a ha
    refine mem_redirectAdds_of_step hsnap ?_
    rw [hstep]
    exact ha
  refine ⟨List.perm_insertionSort precLe _, List.sorted_insertionSort precLe _,
    fun l2 hp2 hs2 => List.sublist_insertionSort hp2 hs2, ?_, ?_⟩
  · intro k hk
    have hsp := chainAddsAux_spine
      ((enabledInterceptors cd (match (buildNodes cd rfd)[p]? with
        | some nd => nodeName nd
        | none => "") cdef).insertionSort precLe) p c hres2 k hk
    exact lookupEdge_applyOps_last (hchmem _ hsp) (huniq _ hsp)
  · have hrm : (p, c) ∈ redirectRemoves cd (buildNodes cd rfd) (nodeMapOf cd rfd)
        (initialEdges cd (nodeMapOf cd rfd)) := by
      refine mem_redirectRemoves_of_step hsnap ?_
      rw [hstep]
      exact List.mem_append.mpr (Or.inr (by simp))
    exact lookupEdge_applyOps_removed hnopc hrm

/-- Counterexample for C1 as stated: in `cexC1defs` the provider `p` (node 3)
and exposed consumer `c` (node 0) have enabled interceptors `i1` (node 1,
precedence 1) and `i2` (node 2, precedence 2), so the claim demands the chain
edge `i1 → i2` be labelled `Interceptor 2`; but a second redirection (of the
edge `d → i2`) also writes the pair `(i1, i2)`, and `update_edge` lets the
last write win, leaving that edge labelled `Dependency`. -/
theorem interceptor_chain_counterexample :
    lookupByKey (nodeMapOf cexC1defs []) "p" = some 3 ∧
    lookupByKey (nodeMapOf cexC1defs []) "c" = some 0 ∧
    ({ mkComp "c" with expects := ["p"], exposed := true } :
      ComponentDefinition).intercepts = [] ∧
    lookupEdge (initialEdges cexC1defs (nodeMapOf cexC1defs [])) 3 0 =
      some Edge.dependency ∧
    ((enabledInterceptors cexC1defs "p"
        { mkComp "c" with expects := ["p"], exposed := true }).insertionSort
          precLe).map
        (fun d => (lookupByKey (nodeMapOf cexC1defs []) d.name, d.precedence)) =
      [(some 1, 1), (some 2, 2)] ∧
    lookupEdge (graphFinalEdges cexC1defs []) 1 2 = some Edge.dependency ∧
    some Edge.dependency ≠ some (Edge.interceptor 2) := by
  refine ⟨rfl, rfl, rfl, rfl, rfl, rfl, ?_⟩
  intro h
  exact Edge.noConfusion (Option.some.inj h)

/-- Witness for C1: in `witC1defs` the provider `client` (node 0) with
consumer `handler` (node 3) has interceptors `outer` (precedence 99) and
`inner` (precedence 1); the redirection is unique, and the final graph holds
`client → inner` (`Interceptor 1`), `inner → outer` (`Interceptor 99`) and
`outer → handler` (`Dependency`), with the original `client → handler` edge
gone. -/
theorem interceptor_chain_redirection_witness :
    ((enabledInterceptors witC1defs "client"
        { mkComp "handler" with expects := ["client"], exposed := true }).insertionSort
          precLe).Perm
      (enabledInterceptors witC1defs "client"
        { mkComp "handler" with expects := ["client"], exposed := true }) ∧
      List.Sorted precLe
        ((enabledInterceptors witC1defs "client"
          { mkComp "handler" with expects := ["client"], exposed := true }).insertionSort
            precLe) ∧
      (∀ l2 : List ComponentDefinition, List.Pairwise precLe l2 →
        List.Sublist l2 (enabledInterceptors witC1defs "client"
          { mkComp "handler" with expects := ["client"], exposed := true }) →
        List.Sublist l2 ((enabledInterceptors witC1defs "client"
          { mkComp "handler" with expects := ["client"], exposed := true }).insertionSort
            precLe)) ∧
      (∀ k, k < ((enabledInterceptors witC1defs "client"
          { mkComp "handler" with expects := ["client"], exposed := true }).insertionSort
            precLe).length + 1 →
        lookupEdge (graphFinalEdges witC1defs [])
            ((0 :: ((enabledInterceptors witC1defs "client"
                { mkComp "handler" with expects := ["client"], exposed := true }).insertionSort
                  precLe).map
                (idxOfDef (nodeMapOf witC1defs []))).getD k 0)
            ((((enabledInterceptors witC1defs "client"
                { mkComp "handler" with expects := ["client"], exposed := true }).insertionSort
                  precLe).map
                (idxOfDef (nodeMapOf witC1defs [])) ++ [3]).getD k 0) =
          some (if k < ((enabledInterceptors witC1defs "client"
                { mkComp "handler" with expects := ["client"], exposed := true }).insertionSort
                  precLe).length
                then Edge.interceptor
                  ((((enabledInterceptors witC1defs "client"
                    { mkComp "handler" with expects := ["client"], exposed := true }).insertionSort
                      precLe).map
                    (·.precedence)).getD k 0)
                else Edge.dependency)) ∧
      lookupEdge (graphFinalEdges witC1defs []) 0 3 = none :=
  interceptor_chain_redirection witC1defs [] 0 3 Edge.dependency
    { mkComp "handler" with expects := ["client"], exposed := true } "client"
    (by decide) rfl rfl
    (by intro h
        have h2 : (enabledInterceptors witC1defs "client"
            { mkComp "handler" with expects := ["client"], exposed := true }).length = 2 := rfl
        rw [h] at h2
        exact absurd h2 (by decide))
    (by decide) (by decide) (by decide) (by decide)
